import Mathlib

/-!
Verification of the diff → order → generate migration pipeline of
`sequelize-auto-migrations-ng` (entry point `src/bin/makemigration.js`).

The CLI file `makemigration.js` is in the repository; the library it calls
(`lib/migrate`: `parseDifference`, `sortActions`, `getMigration`, ...) is
not part of the provided sources, so those functions are modelled from the
specification (sections 3, 4.1, 4.2, 4.3) and every such definition says so
in its doc comment.  The CLI orchestration itself (option handling, the
promise chain, early exits, persistence effects) is embedded directly from
`makemigration.js`.
-/

namespace Migrations

/-! ## Association-list helpers (string-keyed maps of the Snapshot model) -/

/-- Lookup of the first binding of key `k` in an association list. -/
def alookup {α : Type} (k : String) : List (String × α) → Option α
  | [] => none
  | (k', v) :: rest => if k' = k then some v else alookup k rest

/-- Replace the value of the first binding of key `k` (no-op when absent). -/
def asetKey {α : Type} (k : String) (v : α) : List (String × α) → List (String × α)
  | [] => []
  | (k', v') :: rest => if k' = k then (k', v) :: rest else (k', v') :: asetKey k v rest

/-- Remove the first binding of key `k` (no-op when absent). -/
def aeraseKey {α : Type} (k : String) : List (String × α) → List (String × α)
  | [] => []
  | (k', v') :: rest => if k' = k then rest else (k', v') :: aeraseKey k rest

/-- Remove the first occurrence of the value `x` from a list. -/
def verase {α : Type} [DecidableEq α] (x : α) : List α → List α
  | [] => []
  | y :: rest => if y = x then rest else y :: verase x rest

/-- The keys of an association list. -/
def akeys {α : Type} (l : List (String × α)) : List String := l.map Prod.fst

/-! ## Data model (spec section 3) -/

/-- Modelled from the spec: ColumnDef — data type (kept serialized), nullability
flag, optional default value, primary-key flag, unique flag, auto-increment flag. -/
structure ColumnDef where
  typeName : String
  allowNull : Bool
  defaultValue : Option String
  primaryKey : Bool
  uniqueFlag : Bool
  autoIncrement : Bool
deriving DecidableEq, Repr

/-- Modelled from the spec: IndexDef — ordered column names, uniqueness flag,
optional index type. -/
structure IndexDef where
  fields : List String
  uniqueFlag : Bool
  indexType : Option String
deriving DecidableEq, Repr

/-- Modelled from the spec: ForeignKeyDef — source column(s), referenced table,
referenced column(s), on-update/on-delete behavior. -/
structure ForeignKeyDef where
  sourceColumns : List String
  refTable : String
  refColumns : List String
  onUpdate : Option String
  onDelete : Option String
deriving DecidableEq, Repr

/-- Modelled from the spec: TableDef — mapping from column name to ColumnDef,
from index name to IndexDef, from foreign-key name to ForeignKeyDef.
Diffing and application treat the index and foreign-key collections by whole
(name, definition) pair identity, following section 4.1 where index/foreign-key
changes surface as remove+add rather than an in-place change action. -/
structure TableDef where
  columns : List (String × ColumnDef)
  indexes : List (String × IndexDef)
  foreignKeys : List (String × ForeignKeyDef)
deriving DecidableEq, Repr

/-- Modelled from the spec: Snapshot — mapping from table name to TableDef. -/
abbrev Snapshot : Type := List (String × TableDef)

/-- Well-formedness of a TableDef: the spec's uniqueness invariant — column
names, and the index / foreign-key (name, definition) entries of a table are
duplicate-free. -/
def TableDef.WF (t : TableDef) : Prop :=
  (akeys t.columns).Nodup ∧ t.indexes.Nodup ∧ t.foreignKeys.Nodup

instance (t : TableDef) : Decidable t.WF := by
  unfold TableDef.WF
  infer_instance

/-- Well-formedness of a Snapshot: table names are unique and every table is
well-formed (spec section 3 invariants). -/
def Snapshot.WF (s : Snapshot) : Prop :=
  (akeys s).Nodup ∧ ∀ p ∈ s, TableDef.WF p.2

instance (s : Snapshot) : Decidable s.WF := by
  unfold Snapshot.WF
  infer_instance

/-! ## Actions (spec section 3) -/

/-- Modelled from the spec: Action — tagged variant over the nine schema-change
kinds, each carrying the target table name and its payload.  Removal actions
carry the removed definition so that every Action is self-sufficient for
reversal, per the section 3 invariant. -/
inductive Action where
  | createTable (table : String) (def_ : TableDef)
  | dropTable (table : String) (old : TableDef)
  | addColumn (table col : String) (def_ : ColumnDef)
  | removeColumn (table col : String) (old : ColumnDef)
  | changeColumn (table col : String) (old new_ : ColumnDef)
  | addIndex (table name : String) (def_ : IndexDef)
  | removeIndex (table name : String) (old : IndexDef)
  | addForeignKey (table name : String) (def_ : ForeignKeyDef)
  | removeForeignKey (table name : String) (old : ForeignKeyDef)
deriving DecidableEq, Repr

/-- The table an action targets. -/
def Action.table : Action → String
  | .createTable t _ => t
  | .dropTable t _ => t
  | .addColumn t _ _ => t
  | .removeColumn t _ _ => t
  | .changeColumn t _ _ _ => t
  | .addIndex t _ _ => t
  | .removeIndex t _ _ => t
  | .addForeignKey t _ _ => t
  | .removeForeignKey t _ _ => t

/-! ## DiffEngine (spec section 4.1), named `parseDifference` after the call
site `migrate.parseDifference` in `makemigration.js`. -/

/-- Modelled from the spec: the names of tables present in `target` but absent
from `source` — the tables newly created by this batch. -/
def newTableNames (source target : Snapshot) : List String :=
  (target.filter (fun p => (alookup p.1 source).isNone)).map Prod.fst

/-- Modelled from the spec (section 4.2, cycle-breaking policy): a foreign key
of a newly created table is deferred into a separate `addForeignKey` action
whenever its referenced table is itself newly created in the same batch, so
`createTable` payloads never reference tables that do not exist yet.  The
foreign keys kept inside the `createTable` payload are the others. -/
def keptForeignKeys (newNames : List String) (td : TableDef) : TableDef :=
  { td with foreignKeys := td.foreignKeys.filter (fun fk => fk.2.refTable ∉ newNames) }

/-- The foreign keys of a new table that are deferred (referencing another new
table), emitted as separate `addForeignKey` actions. -/
def deferredFKActions (newNames : List String) (tname : String) (td : TableDef) : List Action :=
  (td.foreignKeys.filter (fun fk => fk.2.refTable ∈ newNames)).map
    (fun fk => Action.addForeignKey tname fk.1 fk.2)

/-- Modelled from the spec (section 4.1 step 3): per-table comparison of the
column, index and foreign-key collections of a table present in both
snapshots.  Columns compare by name (a differing definition yields one
`changeColumn` carrying both the old and the new ColumnDef); indexes and
foreign keys compare by whole (name, definition) entry, a change surfacing as
one remove plus one add. -/
def tableDiff (tname : String) (src tgt : TableDef) : List Action :=
  let colAdds := (tgt.columns.filter (fun c => (alookup c.1 src.columns).isNone)).map
    (fun c => Action.addColumn tname c.1 c.2)
  let colRemoves := (src.columns.filter (fun c => (alookup c.1 tgt.columns).isNone)).map
    (fun c => Action.removeColumn tname c.1 c.2)
  let colChanges := tgt.columns.filterMap (fun c =>
    match alookup c.1 src.columns, alookup c.1 tgt.columns with
    | some oldDef, some newDef =>
      if oldDef = newDef then none else some (Action.changeColumn tname c.1 oldDef newDef)
    | _, _ => none)
  let idxAdds := (tgt.indexes.filter (fun i => i ∉ src.indexes)).map
    (fun i => Action.addIndex tname i.1 i.2)
  let idxRemoves := (src.indexes.filter (fun i => i ∉ tgt.indexes)).map
    (fun i => Action.removeIndex tname i.1 i.2)
  let fkAdds := (tgt.foreignKeys.filter (fun i => i ∉ src.foreignKeys)).map
    (fun i => Action.addForeignKey tname i.1 i.2)
  let fkRemoves := (src.foreignKeys.filter (fun i => i ∉ tgt.foreignKeys)).map
    (fun i => Action.removeForeignKey tname i.1 i.2)
  colAdds ++ colRemoves ++ colChanges ++ idxAdds ++ idxRemoves ++ fkAdds ++ fkRemoves

/-- Modelled from the spec: `diff(source, target)` of section 4.1 — the
DiffEngine, named `parseDifference` after the `migrate.parseDifference` call
in `makemigration.js` (library code not in the provided sources).  Emits
creates (with deferred foreign keys split off), the deferred `addForeignKey`
actions, the per-table comparisons for common tables, and finally drops; this
canonical emission order already satisfies the dependency order of section
4.2, which the sorter preserves. -/
def parseDifference (source target : Snapshot) : List Action :=
  let newNames := newTableNames source target
  let creates := (target.filter (fun p => (alookup p.1 source).isNone)).map
    (fun p => Action.createTable p.1 (keptForeignKeys newNames p.2))
  let deferred := (target.filter (fun p => (alookup p.1 source).isNone)).flatMap
    (fun p => deferredFKActions newNames p.1 p.2)
  let commonActs := (target.filter (fun p => (alookup p.1 source).isSome)).flatMap
    (fun p =>
      match alookup p.1 source, alookup p.1 target with
      | some src, some tgt => tableDiff p.1 src tgt
      | _, _ => [])
  let drops := (source.filter (fun p => (alookup p.1 target).isNone)).map
    (fun p => Action.dropTable p.1 p.2)
  creates ++ deferred ++ commonActs ++ drops

/-! ## ActionSorter (spec section 4.2), named `sortActions` after the call
site `migrate.sortActions` in `makemigration.js`. -/

/-- Modelled from the spec (section 4.2, first and second bullets): does
action `a` depend on a `createTable` of table `t`?  The six kinds
`addColumn`, `removeColumn`, `changeColumn`, `addIndex`, `removeIndex`,
`addForeignKey` on table `t` do, and `addForeignKey` also does when its
payload references `t`. -/
def dependsOnCreate (a : Action) (t : String) : Bool :=
  match a with
  | .addColumn t' _ _ => t' = t
  | .removeColumn t' _ _ => t' = t
  | .changeColumn t' _ _ _ => t' = t
  | .addIndex t' _ _ => t' = t
  | .removeIndex t' _ _ => t' = t
  | .addForeignKey t' _ fk => t' = t || fk.refTable = t
  | _ => false

/-- Modelled from the spec (section 4.2, third bullet): is `b` a
`removeForeignKey`/`removeColumn`/`removeIndex` action that targets table `t`
or references `t` as a foreign-key target? -/
def isRemoveTouching (t : String) (b : Action) : Bool :=
  match b with
  | .removeColumn t' _ _ => t' = t
  | .removeIndex t' _ _ => t' = t
  | .removeForeignKey t' _ fk => t' = t || fk.refTable = t
  | _ => false

/-- Modelled from the spec (section 4.2): the dependency relation of the
action graph — `dependsOn a b` holds when `b` must be emitted before `a`. -/
def dependsOn (a b : Action) : Bool :=
  match b with
  | .createTable t _ => dependsOnCreate a t
  | _ =>
    match a with
    | .dropTable t _ => isRemoveTouching t b
    | _ => false

/-- Is `a` ready to be emitted: it depends on no still-pending action. -/
def isReady (pending : List Action) (a : Action) : Bool :=
  pending.all (fun b => !(dependsOn a b))

/-- Extract the first ready element of the scan list (readiness judged
against `all`), returning it together with the remaining elements. -/
def extractFirstReady (all : List Action) : List Action → Option (Action × List Action)
  | [] => none
  | a :: rest =>
    if isReady all a then some (a, rest)
    else
      match extractFirstReady all rest with
      | none => none
      | some (b, r) => some (b, a :: r)

/-- One Kahn pass with fuel: repeatedly emit the earliest pending action all
of whose dependencies are resolved (spec section 4.2, stable topological
sort).  The fallback branches (fuel exhausted, no ready element) are
unreachable because the dependency relation is layered, but keep the
function total. -/
def kahn : Nat → List Action → List Action
  | 0, pending => pending
  | n + 1, pending =>
    match extractFirstReady pending pending with
    | none => pending
    | some (a, rest) => a :: kahn n rest

/-- Modelled from the spec: `sort` of section 4.2 — the ActionSorter, named
`sortActions` after the `migrate.sortActions` call in `makemigration.js`
(library code not in the provided sources): a stable topological sort of the
action list along the `dependsOn` relation. -/
def sortActions (actions : List Action) : List Action :=
  kahn actions.length actions

/-- The Boolean dependency-order predicate: no action depends on a
later-or-equal action of the sequence. -/
def depOrderedB : List Action → Bool
  | [] => true
  | a :: rest => rest.all (fun b => !(dependsOn a b)) && depOrderedB rest

/-! ## MigrationGenerator (spec section 4.3), named `getMigration` after the
call site `migrate.getMigration` in `makemigration.js`. -/

/-- One human-readable change-log line per action (spec section 4.3: the log
is in one-to-one correspondence with the statements). -/
def actionLog : Action → String
  | .createTable t _ => "createTable " ++ t
  | .dropTable t _ => "dropTable " ++ t
  | .addColumn t c _ => "addColumn " ++ c ++ " into table " ++ t
  | .removeColumn t c _ => "removeColumn " ++ c ++ " from table " ++ t
  | .changeColumn t c _ _ => "changeColumn " ++ c ++ " of table " ++ t
  | .addIndex t n _ => "addIndex " ++ n ++ " to table " ++ t
  | .removeIndex t n _ => "removeIndex " ++ n ++ " from table " ++ t
  | .addForeignKey t n _ => "addForeignKey " ++ n ++ " to table " ++ t
  | .removeForeignKey t n _ => "removeForeignKey " ++ n ++ " from table " ++ t

/-- The migration artifact assembled by `makemigration.js`: the up and down
command sequences plus the console change log.  A command is modelled by the
Action it renders, since per spec section 4.3 each Action maps to exactly one
statement whose parameters are the Action's payload serialized verbatim (the
generator performs rendering only, no semantic transformation). -/
structure Migration where
  commandsUp : List Action
  commandsDown : List Action
  consoleOut : List String
deriving DecidableEq, Repr

/-- Modelled from the spec: `generate` of section 4.3 — the
MigrationGenerator, named `getMigration` after the `migrate.getMigration`
call in `makemigration.js` (library code not in the provided sources).  Its
`commandsDown` starts empty; `makemigration.js` line 138 overwrites it with
the `commandsUp` of the opposite-direction generation. -/
def getMigration (actions : List Action) : Migration :=
  { commandsUp := actions
    commandsDown := []
    consoleOut := actions.map actionLog }

/-! ## Statement application (spec sections 4.3 and 8: the simulation of a
statement sequence against a schema) -/

/-- Apply an optional table-local transformation to table `n` of a snapshot:
fails when the table is absent or the transformation fails. -/
def modifyTable (s : Snapshot) (n : String) (f : TableDef → Option TableDef) :
    Option Snapshot :=
  match alookup n s with
  | none => none
  | some td =>
    match f td with
    | none => none
    | some td' => some (asetKey n td' s)

/-- Modelled from the spec: the effect of one rendered statement on a schema
(the "simulated against" semantics of the section 8 round-trip property).
Each action requires its target to exist (and additions their payload to be
absent, removals theirs to be present), and performs the named structural
change; statements are in one-to-one correspondence with Actions (section
4.3), so application is defined on the Action the statement renders. -/
def applyAction (s : Snapshot) (a : Action) : Option Snapshot :=
  match a with
  | .createTable n td =>
    if (alookup n s).isSome then none else some (s ++ [(n, td)])
  | .dropTable n _ =>
    if (alookup n s).isSome then some (aeraseKey n s) else none
  | .addColumn n c cd =>
    modifyTable s n (fun td =>
      if (alookup c td.columns).isSome then none
      else some { td with columns := td.columns ++ [(c, cd)] })
  | .removeColumn n c _ =>
    modifyTable s n (fun td =>
      if (alookup c td.columns).isSome then
        some { td with columns := aeraseKey c td.columns }
      else none)
  | .changeColumn n c _ newDef =>
    modifyTable s n (fun td =>
      if (alookup c td.columns).isSome then
        some { td with columns := asetKey c newDef td.columns }
      else none)
  | .addIndex n nm idx =>
    modifyTable s n (fun td =>
      if (nm, idx) ∈ td.indexes then none
      else some { td with indexes := td.indexes ++ [(nm, idx)] })
  | .removeIndex n nm idx =>
    modifyTable s n (fun td =>
      if (nm, idx) ∈ td.indexes then
        some { td with indexes := verase (nm, idx) td.indexes }
      else none)
  | .addForeignKey n nm fk =>
    modifyTable s n (fun td =>
      if (nm, fk) ∈ td.foreignKeys then none
      else some { td with foreignKeys := td.foreignKeys ++ [(nm, fk)] })
  | .removeForeignKey n nm fk =>
    modifyTable s n (fun td =>
      if (nm, fk) ∈ td.foreignKeys then
        some { td with foreignKeys := verase (nm, fk) td.foreignKeys }
      else none)

/-- Apply a statement sequence in order; fails as soon as one statement
fails. -/
def applyActions : Snapshot → List Action → Option Snapshot
  | s, [] => some s
  | s, a :: rest =>
    match applyAction s a with
    | none => none
    | some s' => applyActions s' rest

/-! ## Schema equivalence -/

/-- Two TableDefs describe the same table: equal column lookups, and the same
index and foreign-key entries (as sets of (name, definition) pairs).
Quantifiers range over the keys present on either side, keeping the predicate
decidable; lookups at absent keys agree trivially. -/
def TableEquiv (t u : TableDef) : Prop :=
  (∀ c ∈ akeys t.columns ++ akeys u.columns,
    alookup c t.columns = alookup c u.columns) ∧
  (∀ p ∈ t.indexes ++ u.indexes, (p ∈ t.indexes ↔ p ∈ u.indexes)) ∧
  (∀ p ∈ t.foreignKeys ++ u.foreignKeys, (p ∈ t.foreignKeys ↔ p ∈ u.foreignKeys))

instance (t u : TableDef) : Decidable (TableEquiv t u) := by
  unfold TableEquiv
  infer_instance

/-- Lift `TableEquiv` to optional lookup results: both absent, or both
present and equivalent. -/
def optTableEquiv : Option TableDef → Option TableDef → Prop
  | some ts, some tu => TableEquiv ts tu
  | none, none => True
  | _, _ => False

instance : (a b : Option TableDef) → Decidable (optTableEquiv a b)
  | some _, some _ => inferInstanceAs (Decidable (TableEquiv _ _))
  | none, none => inferInstanceAs (Decidable True)
  | some _, none => inferInstanceAs (Decidable False)
  | none, some _ => inferInstanceAs (Decidable False)

/-- Two Snapshots describe the same schema: the same table names, with
equivalent tables under every name. -/
def SnapshotEquiv (s u : Snapshot) : Prop :=
  ∀ n ∈ akeys s ++ akeys u, optTableEquiv (alookup n s) (alookup n u)

instance (s u : Snapshot) : Decidable (SnapshotEquiv s u) := by
  unfold SnapshotEquiv
  infer_instance

/-! ## The CLI orchestration of `makemigration.js` (lines 56-200)

The promise chain is embedded as a pure function from the parsed options and
an environment (the responses of the external collaborators: the two state
queries, the extracted model snapshot, the clock) to an `Outcome` recording
every observable effect: console lines, error lines, the exit status, the
pruning / file-write / state-row effects, and the assembled migration
artifact.  A failure of one asynchronous step is modelled by naming the step
that rejects; its `catch` handler then runs (lines 194-200). -/

/-- The command-line options of `makemigration.js` (lines 13-45) that affect
the modelled behavior. -/
structure Options where
  preview : Bool := false
  nameOpt : Option String := none
  commentOpt : Option String := none
  execute : Bool := false
  verbose : Bool := false
  debug : Bool := false
  keepFiles : Bool := false
  resetState : Option String := none

/-- A row of the `SequelizeMeta` table (line 106 query). -/
structure MetaRow where
  name : String
deriving DecidableEq, Repr

/-- The persisted state row of `SequelizeMetaMigrations` (line 113 query);
only its `tables` snapshot is consumed by the pipeline (line 127/129). -/
structure StoredState where
  tables : Snapshot

/-- The environment of one run: responses of the external collaborators. -/
structure Env where
  lastExecutedMigration : Option MetaRow
  storedStateFor : String → Option StoredState
  models : Snapshot
  nowRevision : String

/-- The asynchronous steps whose rejection is caught by a
`.catch((err) => { if (options.debug) console.error(err); })` handler
(lines 194-200): the two meta-table creations (lines 81, 89), the two state
queries (lines 106, 113), the state deletion (line 181) and the bulk insert
(line 183). -/
inductive Step where
  | createMeta
  | createMetaMigrations
  | queryMeta
  | queryMigrations
  | deleteRows
  | bulkInsert
deriving DecidableEq, Repr

/-- Every observable effect of one run of `makemigration.js`.  `exitCode =
none` means the process was never told to exit explicitly and terminates
with status 0 once the event loop drains. -/
structure Outcome where
  exitCode : Option Nat := none
  logs : List String := []
  errLogs : List String := []
  prunedFiles : Bool := false
  wroteFile : Option (String × String) := none
  deletedWhere : Option (String × String) := none
  insertedRow : Option (String × String) := none
  artifact : Option Migration := none
  usedRevision : Option String := none

/-- JavaScript `name.split('-')[0]` (line 108): everything before the first
`-`, or the whole string when it has none. -/
def jsSplitFirst (s : String) : String := (s.splitOn "-").headD ""

/-- What a rejection handler prints (lines 194-200): the error only under
`--debug`. -/
def errOut (opts : Options) : List String := if opts.debug then ["error"] else []

/-- The preview rendering of a command sequence (lines 150-152): the
beautified joined statement list. -/
def renderCommands (cmds : List Action) : String :=
  "[ \n" ++ String.intercalate ", \n" (cmds.map actionLog) ++ " \n];\n"

/-- The revision identifier computed at line 108: `-1` when no migration was
ever executed, the part of the last executed migration's name before the
first `-` otherwise. -/
def revisionOf (env : Env) : String :=
  match env.lastExecutedMigration with
  | none => "-1"
  | some row => jsSplitFirst row.name

/-- The tables of the previous state the pipeline diffs from (lines 113-117):
the stored snapshot of the last revision, unless `--reset-state` is given or
no stored state exists, in which case the initial empty state (line 66). -/
def previousTablesOf (opts : Options) (env : Env) : Snapshot :=
  match opts.resetState, env.storedStateFor (revisionOf env) with
  | none, some st => st.tables
  | _, _ => []

/-- The revision of the state being persisted (lines 121-125): the last
executed revision under `--reset-state`, a fresh timestamp otherwise. -/
def currentRevisionOf (opts : Options) (env : Env) : String :=
  match opts.resetState with
  | some _ => revisionOf env
  | none => env.nowRevision

/-- The migration artifact assembled at lines 127-138: the up-commands of the
forward generation, with `commandsDown` overwritten by the up-commands of the
opposite-direction generation (line 138). -/
def assembledMigration (opts : Options) (env : Env) : Migration :=
  let actions := sortActions (parseDifference (previousTablesOf opts env) env.models)
  let downActions := sortActions (parseDifference env.models (previousTablesOf opts env))
  { getMigration actions with commandsDown := (getMigration downActions).commandsUp }

/-- The body of `makemigration.js` lines 81-200 as a pure function, with
`failAt` naming the asynchronous step (if any) that rejects.  Effects
performed before the failing step stand; the step's `catch` handler prints
the error only under `--debug` and the chain then stops without any explicit
exit. -/
def runPipeline (opts : Options) (env : Env) (failAt : Option Step) : Outcome :=
  if failAt = some .createMeta then { errLogs := errOut opts }
  else if failAt = some .createMetaMigrations then { errLogs := errOut opts }
  else if failAt = some .queryMeta then { errLogs := errOut opts }
  else
    let revision : String := revisionOf env
    if env.lastExecutedMigration.isNone ∧ opts.resetState.isSome then
      { exitCode := some 0 }
    else if failAt = some .queryMigrations then { errLogs := errOut opts }
    else
      let currentRevision := currentRevisionOf opts env
      let migration := assembledMigration opts env
      if opts.resetState.isNone ∧ migration.commandsUp = [] then
        { exitCode := some 0, logs := ["No changes found"],
          artifact := some migration, usedRevision := some revision }
      else
        let actionLogs := migration.consoleOut.map (fun v => "[Actions] " ++ v)
        if opts.preview then
          { exitCode := some 0,
            logs := actionLogs ++
              ["Migration result:", renderCommands migration.commandsUp,
               "Undo commands:", renderCommands migration.commandsDown],
            artifact := some migration, usedRevision := some revision }
        else
          let name :=
            match opts.resetState, env.lastExecutedMigration with
            | some _, some row => row.name
            | _, _ => opts.nameOpt.getD "noname"
          let wrote := if opts.resetState.isSome then none
            else some (currentRevision, name)
          let writeLogs := if opts.resetState.isSome then []
            else ["New migration to revision " ++ currentRevision ++
                  " has been saved to file"]
          let sign := if opts.resetState.isSome then ">=" else ">"
          if failAt = some .deleteRows then
            { errLogs := errOut opts, prunedFiles := true, wroteFile := wrote,
              logs := actionLogs ++ writeLogs,
              artifact := some migration, usedRevision := some revision }
          else if failAt = some .bulkInsert then
            { errLogs := errOut opts, prunedFiles := true, wroteFile := wrote,
              deletedWhere := some (sign, revision),
              logs := actionLogs ++ writeLogs,
              artifact := some migration, usedRevision := some revision }
          else
            let resetLogs := if opts.resetState.isSome then
                ["Reset state to latest migration of '" ++ name ++
                 "' has been successfull"]
              else []
            let verboseLogs := if opts.verbose then ["Updated state on DB."] else []
            let executeLogs := if opts.execute then
                ["Use sequelize CLI: sequelize db:migrate --to " ++
                 currentRevision ++ "-" ++ name]
              else []
            { exitCode := some 0, prunedFiles := true, wroteFile := wrote,
              deletedWhere := some (sign, revision),
              insertedRow := some (currentRevision, name),
              logs := actionLogs ++ writeLogs ++ resetLogs ++ verboseLogs ++
                executeLogs,
              artifact := some migration, usedRevision := some revision }

/-- One failure-free run of `makemigration.js`. -/
def runMakemigration (opts : Options) (env : Env) : Outcome :=
  runPipeline opts env none

/-! ## Example values used by the witnesses -/

/-- An example integer primary-key column. -/
def exId : ColumnDef :=
  { typeName := "INTEGER", allowNull := false, defaultValue := none,
    primaryKey := true, uniqueFlag := false, autoIncrement := true }

/-- An example string column. -/
def exName : ColumnDef :=
  { typeName := "STRING", allowNull := true, defaultValue := none,
    primaryKey := false, uniqueFlag := false, autoIncrement := false }

/-- An example table with two columns. -/
def exUsers : TableDef :=
  { columns := [("id", exId), ("name", exName)], indexes := [], foreignKeys := [] }

/-- An example foreign key referencing the `Users` table. -/
def exFK : ForeignKeyDef :=
  { sourceColumns := ["userId"], refTable := "Users", refColumns := ["id"],
    onUpdate := none, onDelete := none }

/-- An example table carrying a foreign key to `Users`. -/
def exPosts : TableDef :=
  { columns := [("id", exId), ("userId", exId)], indexes := [],
    foreignKeys := [("fkUser", exFK)] }

/-! ## Basic lookup lemmas -/

theorem alookup_isSome_of_mem {α : Type} {l : List (String × α)} {p : String × α}
    (h : p ∈ l) : (alookup p.1 l).isSome := by
  induction l with
  | nil => cases h
  | cons q rest ih =>
    obtain ⟨k, v⟩ := q
    rcases List.mem_cons.mp h with rfl | h'
    · simp [alookup]
    · by_cases hk : k = p.1 <;> simp [alookup, hk, ih h']

theorem filter_lookupNone_self {α : Type} (l : List (String × α)) :
    l.filter (fun c => (alookup c.1 l).isNone) = [] := by
  rw [List.filter_eq_nil_iff]
  intro a ha
  obtain ⟨v, hv⟩ := Option.isSome_iff_exists.mp (alookup_isSome_of_mem ha)
  simp [hv]

theorem filter_notMem_self {α : Type} [DecidableEq α] (l : List α) :
    l.filter (fun i => i ∉ l) = [] := by
  rw [List.filter_eq_nil_iff]
  intro a ha
  simp [ha]

theorem tableDiff_changes_self (n : String) (td : TableDef) :
    (td.columns.filterMap (fun c =>
      match alookup c.1 td.columns, alookup c.1 td.columns with
      | some oldDef, some newDef =>
        if oldDef = newDef then none else some (Action.changeColumn n c.1 oldDef newDef)
      | _, _ => none)) = [] := by
  rw [List.filterMap_eq_nil_iff]
  intro c hc
  obtain ⟨v, hv⟩ := Option.isSome_iff_exists.mp (alookup_isSome_of_mem hc)
  simp [hv]

theorem tableDiff_self (n : String) (td : TableDef) : tableDiff n td td = [] := by
  simp only [tableDiff, filter_lookupNone_self, filter_notMem_self,
    tableDiff_changes_self, List.map_nil, List.append_nil, List.nil_append]
  simp [List.filter_eq_nil_iff]

/-- C2: identity of the DiffEngine — `parseDifference S S` is always empty,
and `parseDifference` is pure and deterministic: equal snapshot inputs give
equal action sequences. -/
theorem parseDifference_identity :
    (∀ S : Snapshot, parseDifference S S = []) ∧
    (∀ S T S₂ T₂ : Snapshot, S = S₂ → T = T₂ →
      parseDifference S T = parseDifference S₂ T₂) := by
  constructor
  · intro S
    simp only [parseDifference, filter_lookupNone_self, List.map_nil,
      List.flatMap_nil, List.append_nil, List.nil_append]
    rw [List.flatMap_eq_nil_iff]
    intro p hp
    have hp' : p ∈ S := List.mem_of_mem_filter hp
    obtain ⟨v, hv⟩ := Option.isSome_iff_exists.mp (alookup_isSome_of_mem hp')
    simp [hv, tableDiff_self]
  · intro S T S₂ T₂ hS hT
    rw [hS, hT]

/-- Witness for C2 at concrete snapshots. -/
theorem parseDifference_identity_witness :
    parseDifference [("Users", exUsers)] [("Users", exUsers)] = [] ∧
    ([("Users", exUsers)] : Snapshot) = [("Users", exUsers)] ∧
    parseDifference [("Users", exUsers)] [] =
      parseDifference [("Users", exUsers)] [] :=
  ⟨parseDifference_identity.1 [("Users", exUsers)], rfl,
    parseDifference_identity.2 [("Users", exUsers)] [] [("Users", exUsers)] [] rfl rfl⟩

/-! ## Sorter lemmas -/

/-- Is the action a `createTable`? -/
def Action.isCreate : Action → Bool
  | .createTable _ _ => true
  | _ => false

/-- Is the action a `dropTable`? -/
def Action.isDrop : Action → Bool
  | .dropTable _ _ => true
  | _ => false

theorem dependsOn_self (a : Action) : dependsOn a a = false := by
  cases a <;> rfl

theorem dependsOn_create_left (t : String) (td : TableDef) (b : Action) :
    dependsOn (.createTable t td) b = false := by
  cases b <;> rfl

theorem dependsOn_eq_true_cases {a b : Action} (h : dependsOn a b = true) :
    b.isCreate = true ∨ a.isDrop = true := by
  cases b <;> cases a <;>
    simp_all [dependsOn, Action.isCreate, Action.isDrop]

theorem dependsOn_drop_drop (t : String) (old : TableDef) (t' : String)
    (old' : TableDef) : dependsOn (.dropTable t old) (.dropTable t' old') = false :=
  rfl

theorem exists_ready (pending : List Action) (hne : pending ≠ []) :
    ∃ a ∈ pending, isReady pending a = true := by
  by_cases hc : ∃ a ∈ pending, a.isCreate = true
  · obtain ⟨a, ha, hac⟩ := hc
    refine ⟨a, ha, ?_⟩
    unfold isReady
    rw [List.all_eq_true]
    intro b hb
    obtain ⟨t, td, rfl⟩ : ∃ t td, a = .createTable t td := by
      cases a <;> simp_all [Action.isCreate]
    simp [dependsOn_create_left]
  · push_neg at hc
    by_cases hd : ∃ a ∈ pending, a.isDrop = false
    · obtain ⟨a, ha, had⟩ := hd
      refine ⟨a, ha, ?_⟩
      unfold isReady
      rw [List.all_eq_true]
      intro b hb
      cases hdep : dependsOn a b
      · simp
      · rcases dependsOn_eq_true_cases hdep with h1 | h1
        · exact absurd h1 (by simp [hc b hb])
        · rw [had] at h1; cases h1
    · push_neg at hd
      obtain ⟨a, rest, rfl⟩ := List.exists_cons_of_ne_nil hne
      refine ⟨a, List.mem_cons_self a rest, ?_⟩
      unfold isReady
      rw [List.all_eq_true]
      intro b hb
      have hbd := hd b hb
      have had := hd a (List.mem_cons_self a rest)
      obtain ⟨t, old, rfl⟩ : ∃ t old, a = .dropTable t old := by
        cases a <;> simp_all [Action.isDrop]
      obtain ⟨t', old', rfl⟩ : ∃ t' old', b = .dropTable t' old' := by
        cases b <;> simp_all [Action.isDrop]
      simp [dependsOn_drop_drop]

theorem extractFirstReady_eq_some {all : List Action} :
    ∀ {l : List Action} {a : Action} {rest : List Action},
      extractFirstReady all l = some (a, rest) →
      isReady all a = true ∧ (a :: rest).Perm l := by
  intro l
  induction l with
  | nil => intro a rest h; cases h
  | cons x xs ih =>
    intro a rest h
    unfold extractFirstReady at h
    by_cases hr : isReady all x = true
    · rw [if_pos hr] at h
      cases h
      exact ⟨hr, .refl _⟩
    · rw [if_neg hr] at h
      cases he : extractFirstReady all xs with
      | none => rw [he] at h; cases h
      | some pr =>
        obtain ⟨b, r⟩ := pr
        rw [he] at h
        cases h
        obtain ⟨h1, h2⟩ := ih he
        exact ⟨h1, (List.Perm.swap x a r).trans (h2.cons x)⟩

theorem extractFirstReady_isSome {all : List Action} :
    ∀ {l : List Action}, (∃ a ∈ l, isReady all a = true) →
      (extractFirstReady all l).isSome := by
  intro l
  induction l with
  | nil => intro h; obtain ⟨a, ha, _⟩ := h; cases ha
  | cons x xs ih =>
    intro h
    unfold extractFirstReady
    by_cases hr : isReady all x = true
    · simp [hr]
    · rw [if_neg hr]
      have hx : ∃ a ∈ xs, isReady all a = true := by
        obtain ⟨a, ha, hra⟩ := h
        rcases List.mem_cons.mp ha with rfl | ha'
        · exact absurd hra hr
        · exact ⟨a, ha', hra⟩
      have := ih hx
      cases he : extractFirstReady all xs with
      | none => rw [he] at this; cases this
      | some pr => obtain ⟨b, r⟩ := pr; simp

theorem kahn_perm : ∀ (n : Nat) (pending : List Action),
    (kahn n pending).Perm pending
  | 0, _ => .refl _
  | n + 1, pending => by
    unfold kahn
    cases he : extractFirstReady pending pending with
    | none => exact .refl _
    | some pr =>
      obtain ⟨a, rest⟩ := pr
      obtain ⟨_, hperm⟩ := extractFirstReady_eq_some he
      exact ((kahn_perm n rest).cons a).trans hperm

theorem kahn_pairwise : ∀ (n : Nat) (pending : List Action),
    pending.length ≤ n →
    List.Pairwise (fun x y => dependsOn x y = false) (kahn n pending)
  | 0, pending, h => by
    have hnil : pending = [] := List.eq_nil_of_length_eq_zero (Nat.le_zero.mp h)
    subst hnil
    exact .nil
  | n + 1, pending, h => by
    by_cases hemp : pending = []
    · subst hemp
      simp [kahn, extractFirstReady]
    · unfold kahn
      cases he : extractFirstReady pending pending with
      | none =>
        have hex := exists_ready pending hemp
        have hs := extractFirstReady_isSome hex
        rw [he] at hs
        cases hs
      | some pr =>
        obtain ⟨a, rest⟩ := pr
        obtain ⟨hready, hperm⟩ := extractFirstReady_eq_some he
        have hlen : rest.length + 1 = pending.length := by
          simpa using hperm.length_eq
        have hn : pending.length ≤ n + 1 := h
        rw [List.pairwise_cons]
        constructor
        · intro y hy
          have hyr : y ∈ rest := (kahn_perm n rest).mem_iff.mp hy
          have hyp : y ∈ pending :=
            hperm.mem_iff.mp (List.mem_cons_of_mem a hyr)
          have := (List.all_eq_true.mp hready) y hyp
          simpa using this
        · exact kahn_pairwise n rest (by omega)

theorem sortActions_perm_aux (l : List Action) : (sortActions l).Perm l :=
  kahn_perm _ _

theorem sortActions_pairwise (l : List Action) :
    List.Pairwise (fun x y => dependsOn x y = false) (sortActions l) :=
  kahn_pairwise _ _ le_rfl

theorem kahn_of_depOrdered : ∀ (l : List Action), depOrderedB l = true →
    kahn l.length l = l
  | [], _ => rfl
  | x :: xs, h => by
    simp only [depOrderedB, Bool.and_eq_true] at h
    obtain ⟨h1, h2⟩ := h
    have hready : isReady (x :: xs) x = true := by
      unfold isReady
      rw [List.all_eq_true]
      intro b hb
      rcases List.mem_cons.mp hb with rfl | hb'
      · simp [dependsOn_self]
      · exact (List.all_eq_true.mp h1) b hb'
    have hex : extractFirstReady (x :: xs) (x :: xs) = some (x, xs) := by
      unfold extractFirstReady
      rw [if_pos hready]
    show kahn (xs.length + 1) (x :: xs) = x :: xs
    unfold kahn
    rw [hex]
    show x :: kahn xs.length xs = x :: xs
    rw [kahn_of_depOrdered xs h2]

/-- C3: the sorter returns a permutation of the same multiset of Actions (no
payload changed), is deterministic, and is idempotent — a sequence already
satisfying dependency order is returned unchanged. -/
theorem sortActions_spec :
    (∀ l : List Action, (sortActions l).Perm l) ∧
    (∀ l l₂ : List Action, l = l₂ → sortActions l = sortActions l₂) ∧
    (∀ l : List Action, depOrderedB l = true → sortActions l = l) :=
  ⟨sortActions_perm_aux, fun _ _ h => by rw [h], kahn_of_depOrdered⟩

/-- Witness for C3 at a concrete dependency-ordered sequence. -/
theorem sortActions_spec_witness :
    (sortActions [Action.createTable "Users" exUsers,
      Action.addColumn "Users" "age" exId]).Perm
      [Action.createTable "Users" exUsers, Action.addColumn "Users" "age" exId] ∧
    depOrderedB [Action.createTable "Users" exUsers,
      Action.addColumn "Users" "age" exId] = true ∧
    sortActions [Action.createTable "Users" exUsers,
      Action.addColumn "Users" "age" exId] =
      [Action.createTable "Users" exUsers, Action.addColumn "Users" "age" exId] :=
  ⟨sortActions_spec.1 _, by decide,
    sortActions_spec.2.2 _ (by decide)⟩

/-- C4: in every sorted sequence produced by the sorter, a `createTable(T)`
action precedes every other action that targets or references T (the six
kinds addColumn, removeColumn, changeColumn, addIndex, removeIndex and
addForeignKey on or referencing T, captured by `dependsOnCreate`). -/
theorem sortActions_create_precedence (l : List Action) (T : String)
    (td : TableDef) (i j : Nat) (a : Action)
    (hi : (sortActions l)[i]? = some (Action.createTable T td))
    (hj : (sortActions l)[j]? = some a)
    (ha : dependsOnCreate a T = true) : i < j := by
  obtain ⟨hilt, hig⟩ := List.getElem?_eq_some.mp hi
  obtain ⟨hjlt, hjg⟩ := List.getElem?_eq_some.mp hj
  by_contra hij
  push_neg at hij
  rcases Nat.lt_or_eq_of_le hij with hlt | heq
  · have hp := (List.pairwise_iff_getElem.mp (sortActions_pairwise l)) j i hjlt hilt hlt
    rw [hig, hjg] at hp
    rw [show dependsOn a (Action.createTable T td) = dependsOnCreate a T from rfl] at hp
    rw [ha] at hp
    cases hp
  · subst heq
    have hac : a = Action.createTable T td := by rw [← hjg, hig]
    subst hac
    exact absurd ha (by simp [dependsOnCreate])

/-- Witness for C4 at a concrete sorted batch. -/
theorem sortActions_create_precedence_witness : (0 : Nat) < 1 :=
  sortActions_create_precedence
    [Action.addColumn "Users" "age" exId, Action.createTable "Users" exUsers]
    "Users" exUsers 0 1 (Action.addColumn "Users" "age" exId)
    (by decide) (by decide) (by decide)

/-- C5: in every sorted sequence produced by the sorter, every
`removeForeignKey` / `removeColumn` / `removeIndex` action that targets T or
references T as a foreign-key target (captured by `isRemoveTouching`)
precedes the `dropTable(T)` action. -/
theorem sortActions_drop_precedence (l : List Action) (T : String)
    (old : TableDef) (i j : Nat) (a : Action)
    (hi : (sortActions l)[i]? = some (Action.dropTable T old))
    (hj : (sortActions l)[j]? = some a)
    (ha : isRemoveTouching T a = true) : j < i := by
  obtain ⟨hilt, hig⟩ := List.getElem?_eq_some.mp hi
  obtain ⟨hjlt, hjg⟩ := List.getElem?_eq_some.mp hj
  by_contra hij
  push_neg at hij
  rcases Nat.lt_or_eq_of_le hij with hlt | heq
  · have hp := (List.pairwise_iff_getElem.mp (sortActions_pairwise l)) i j hilt hjlt hlt
    rw [hig, hjg] at hp
    have hab : dependsOn (Action.dropTable T old) a = isRemoveTouching T a := by
      cases a <;> rfl
    rw [hab, ha] at hp
    cases hp
  · subst heq
    have haa : a = Action.dropTable T old := by rw [← hjg, hig]
    subst haa
    exact absurd ha (by simp [isRemoveTouching])

/-- Witness for C5 at a concrete sorted batch. -/
theorem sortActions_drop_precedence_witness : (0 : Nat) < 1 :=
  sortActions_drop_precedence
    [Action.dropTable "Users" exUsers, Action.removeColumn "Users" "name" exName]
    "Users" exUsers 1 0 (Action.removeColumn "Users" "name" exName)
    (by decide) (by decide) (by decide)

/-! ## Claims about the CLI orchestration of `makemigration.js` -/

/-- An environment in which nothing was ever migrated and no model exists. -/
def exEnvEmpty : Env :=
  { lastExecutedMigration := none, storedStateFor := fun _ => none,
    models := [], nowRevision := "20260101000000" }

/-- An environment with one executed migration and one model table. -/
def exEnvMeta : Env :=
  { lastExecutedMigration := some ⟨"20250101120000-init"⟩,
    storedStateFor := fun _ => none,
    models := [("Users", exUsers)], nowRevision := "20260101000000" }

/-- An environment with one executed migration, no stored state and no model
tables: under `--reset-state` its diff is empty. -/
def exEnvResetEmpty : Env :=
  { lastExecutedMigration := some ⟨"20250101120000-init"⟩,
    storedStateFor := fun _ => none,
    models := [], nowRevision := "20260101000000" }

/-- C6: when `--reset-state` is not given and the diff of the previous and
current snapshots is empty, the run reports "No changes found" and exits
with status 0 without pruning migration files, writing a migration file, or
modifying the persisted state records (no deletion, no insert). -/
theorem noChanges_no_effects (opts : Options) (env : Env)
    (hrs : opts.resetState = none)
    (hdiff : parseDifference (previousTablesOf opts env) env.models = []) :
    (runMakemigration opts env).exitCode = some 0 ∧
    (runMakemigration opts env).logs = ["No changes found"] ∧
    (runMakemigration opts env).prunedFiles = false ∧
    (runMakemigration opts env).wroteFile = none ∧
    (runMakemigration opts env).deletedWhere = none ∧
    (runMakemigration opts env).insertedRow = none := by
  have hempty : (assembledMigration opts env).commandsUp = [] := by
    simp [assembledMigration, getMigration, hdiff, sortActions, kahn]
  unfold runMakemigration runPipeline
  simp [hrs, hempty]

/-- Witness for C6 at a concrete empty-diff run. -/
theorem noChanges_no_effects_witness :
    (runMakemigration {} exEnvEmpty).exitCode = some 0 ∧
    (runMakemigration {} exEnvEmpty).logs = ["No changes found"] ∧
    (runMakemigration {} exEnvEmpty).prunedFiles = false ∧
    (runMakemigration {} exEnvEmpty).wroteFile = none ∧
    (runMakemigration {} exEnvEmpty).deletedWhere = none ∧
    (runMakemigration {} exEnvEmpty).insertedRow = none :=
  noChanges_no_effects {} exEnvEmpty rfl (by decide)

/-- Counterexample to the universal form of C6: the guard at line 140 is
`!resetState && commandsUp.length === 0`, so a `--reset-state` run whose diff
is empty still prunes the migration files, deletes the persisted state rows
(`revision >= …`) and inserts a fresh state row, and never reports
"No changes found". -/
theorem noChanges_no_effects_counterexample :
    parseDifference
      (previousTablesOf { resetState := some "r" } exEnvResetEmpty)
      exEnvResetEmpty.models = [] ∧
    (runMakemigration { resetState := some "r" } exEnvResetEmpty).prunedFiles = true ∧
    (runMakemigration { resetState := some "r" } exEnvResetEmpty).deletedWhere =
      some (">=", jsSplitFirst "20250101120000-init") ∧
    (runMakemigration { resetState := some "r" } exEnvResetEmpty).insertedRow =
      some (jsSplitFirst "20250101120000-init", "20250101120000-init") ∧
    "No changes found" ∉
      (runMakemigration { resetState := some "r" } exEnvResetEmpty).logs :=
  ⟨rfl, rfl, rfl, rfl, by decide⟩

/-- C7: the migration artifact is assembled with its forward commands equal
to `generate(sort(diff(previous, current)))` and its reverse commands equal
to the forward commands of `generate(sort(diff(current, previous)))`
(line 138: `migration.commandsDown = tmp.commandsUp`). -/
theorem artifact_assembly (opts : Options) (env : Env)
    (h : ¬(env.lastExecutedMigration = none ∧ opts.resetState.isSome = true)) :
    (runMakemigration opts env).artifact = some (assembledMigration opts env) ∧
    (assembledMigration opts env).commandsUp =
      (getMigration (sortActions
        (parseDifference (previousTablesOf opts env) env.models))).commandsUp ∧
    (assembledMigration opts env).commandsDown =
      (getMigration (sortActions
        (parseDifference env.models (previousTablesOf opts env)))).commandsUp := by
  refine ⟨?_, rfl, rfl⟩
  have h1 : ¬(env.lastExecutedMigration.isNone = true ∧ opts.resetState.isSome = true) := by
    cases he : env.lastExecutedMigration <;> simp_all
  unfold runMakemigration runPipeline
  simp only [h1, if_false, if_neg, reduceCtorEq]
  split_ifs <;> simp

/-- Witness for C7 at a concrete run. -/
theorem artifact_assembly_witness :
    (runMakemigration {} exEnvMeta).artifact = some (assembledMigration {} exEnvMeta) ∧
    (assembledMigration {} exEnvMeta).commandsUp =
      (getMigration (sortActions
        (parseDifference (previousTablesOf {} exEnvMeta) exEnvMeta.models))).commandsUp ∧
    (assembledMigration {} exEnvMeta).commandsDown =
      (getMigration (sortActions
        (parseDifference exEnvMeta.models (previousTablesOf {} exEnvMeta)))).commandsUp :=
  artifact_assembly {} exEnvMeta (by simp [exEnvMeta])

/-- C8: with `--preview` the run persists nothing — no pruning, no migration
file, no state deletion or insert — and exits with status 0; when it reaches
the preview branch (no earlier exit), it renders the change log and the
forward and reverse statement sequences as text. -/
theorem preview_no_persistence (opts : Options) (env : Env)
    (hp : opts.preview = true) :
    (runMakemigration opts env).exitCode = some 0 ∧
    (runMakemigration opts env).prunedFiles = false ∧
    (runMakemigration opts env).wroteFile = none ∧
    (runMakemigration opts env).deletedWhere = none ∧
    (runMakemigration opts env).insertedRow = none ∧
    (¬(env.lastExecutedMigration = none ∧ opts.resetState.isSome = true) →
      ¬(opts.resetState = none ∧ (assembledMigration opts env).commandsUp = []) →
      (runMakemigration opts env).logs =
        ((assembledMigration opts env).consoleOut.map (fun v => "[Actions] " ++ v)) ++
        ["Migration result:", renderCommands (assembledMigration opts env).commandsUp,
         "Undo commands:", renderCommands (assembledMigration opts env).commandsDown]) := by
  unfold runMakemigration runPipeline
  simp only [hp]
  split_ifs with h1 h2 h3 <;> simp_all

/-- Witness for C8 at a concrete preview run. -/
theorem preview_no_persistence_witness :
    (runMakemigration { preview := true } exEnvMeta).exitCode = some 0 ∧
    (runMakemigration { preview := true } exEnvMeta).prunedFiles = false ∧
    (runMakemigration { preview := true } exEnvMeta).wroteFile = none ∧
    (runMakemigration { preview := true } exEnvMeta).deletedWhere = none ∧
    (runMakemigration { preview := true } exEnvMeta).insertedRow = none ∧
    (¬(exEnvMeta.lastExecutedMigration = none ∧
        ({ preview := true } : Options).resetState.isSome = true) →
      ¬(({ preview := true } : Options).resetState = none ∧
        (assembledMigration { preview := true } exEnvMeta).commandsUp = []) →
      (runMakemigration { preview := true } exEnvMeta).logs =
        ((assembledMigration { preview := true } exEnvMeta).consoleOut.map
          (fun v => "[Actions] " ++ v)) ++
        ["Migration result:",
         renderCommands (assembledMigration { preview := true } exEnvMeta).commandsUp,
         "Undo commands:",
         renderCommands (assembledMigration { preview := true } exEnvMeta).commandsDown]) :=
  preview_no_persistence { preview := true } exEnvMeta rfl

/-- C9: a rejection at any caught step of the asynchronous pipeline with
`--debug` unset produces no error output, and the process never exits with a
non-zero status. -/
theorem failure_swallowed (opts : Options) (env : Env) (s : Step)
    (hd : opts.debug = false) :
    (runPipeline opts env (some s)).errLogs = [] ∧
    ∀ c, (runPipeline opts env (some s)).exitCode = some c → c = 0 := by
  have he : errOut opts = [] := by simp [errOut, hd]
  unfold runPipeline
  cases s <;> simp [he] <;> split_ifs <;> simp_all

/-- Witness for C9 at a concrete failing bulk insert. -/
theorem failure_swallowed_witness :
    (runPipeline {} exEnvMeta (some .bulkInsert)).errLogs = [] ∧
    ∀ c, (runPipeline {} exEnvMeta (some .bulkInsert)).exitCode = some c → c = 0 :=
  failure_swallowed {} exEnvMeta .bulkInsert rfl

/-- C10: with `--reset-state` given and no executed migration recorded, the
run exits immediately with status 0 and performs nothing else (every other
outcome field keeps its default: no logs, no pruning, no file, no state
change, no diff artifact); otherwise, when a last executed migration exists,
the revision used is the part of its name before the first `-`. -/
theorem resetState_guard (opts : Options) (env : Env) :
    (opts.resetState.isSome = true → env.lastExecutedMigration = none →
      runMakemigration opts env = { exitCode := some 0 }) ∧
    (∀ row, env.lastExecutedMigration = some row →
      (runMakemigration opts env).usedRevision = some (jsSplitFirst row.name)) := by
  constructor
  · intro hrs hle
    unfold runMakemigration runPipeline
    simp [hle, hrs]
  · intro row hrow
    unfold runMakemigration runPipeline
    simp only [hrow, revisionOf]
    split_ifs <;> simp_all

/-- Witness for C10: the empty-meta reset run and a run with a recorded
migration. -/
theorem resetState_guard_witness :
    runMakemigration { resetState := some "r" } exEnvEmpty = { exitCode := some 0 } ∧
    (runMakemigration {} exEnvMeta).usedRevision =
      some (jsSplitFirst "20250101120000-init") :=
  ⟨(resetState_guard { resetState := some "r" } exEnvEmpty).1 rfl rfl,
   (resetState_guard {} exEnvMeta).2 ⟨"20250101120000-init"⟩ rfl⟩

/-! ## Association-list lemma kit (towards the round-trip property) -/

theorem alookup_eq_none_iff {α : Type} (k : String) (l : List (String × α)) :
    alookup k l = none ↔ k ∉ akeys l := by
  induction l with
  | nil => simp [alookup, akeys]
  | cons q rest ih =>
    obtain ⟨k', v⟩ := q
    by_cases hk : k' = k
    · subst hk
      simp [alookup, akeys]
    · rw [alookup, if_neg hk, ih]
      simp only [akeys, List.map_cons]
      constructor
      · intro h hmem
        rcases List.mem_cons.mp hmem with h1 | h1
        · exact hk h1.symm
        · exact h h1
      · intro h hmem
        exact h (List.mem_cons_of_mem _ hmem)

theorem alookup_isSome_iff {α : Type} (k : String) (l : List (String × α)) :
    (alookup k l).isSome = true ↔ k ∈ akeys l := by
  rw [← Decidable.not_iff_not, ← alookup_eq_none_iff]
  cases alookup k l <;> simp

theorem alookup_append {α : Type} (k : String) (l₁ l₂ : List (String × α)) :
    alookup k (l₁ ++ l₂) =
      match alookup k l₁ with
      | some v => some v
      | none => alookup k l₂ := by
  induction l₁ with
  | nil => simp [alookup]
  | cons q rest ih =>
    obtain ⟨k', v⟩ := q
    by_cases hk : k' = k <;> simp [alookup, hk, ih]

theorem alookup_append_left {α : Type} {k : String} {l₁ : List (String × α)}
    (l₂ : List (String × α)) {v : α} (h : alookup k l₁ = some v) :
    alookup k (l₁ ++ l₂) = some v := by
  rw [alookup_append, h]

theorem alookup_append_right {α : Type} {k : String} {l₁ : List (String × α)}
    (l₂ : List (String × α)) (h : alookup k l₁ = none) :
    alookup k (l₁ ++ l₂) = alookup k l₂ := by
  rw [alookup_append, h]

theorem alookup_asetKey_self {α : Type} {k : String} {l : List (String × α)}
    (v : α) (h : (alookup k l).isSome) :
    alookup k (asetKey k v l) = some v := by
  induction l with
  | nil => simp [alookup] at h
  | cons q rest ih =>
    obtain ⟨k', w⟩ := q
    by_cases hk : k' = k
    · simp [asetKey, hk, alookup]
    · simp only [alookup, if_neg hk] at h
      simp [asetKey, hk, alookup, ih h]

theorem alookup_asetKey_ne {α : Type} {k k' : String} (hne : k' ≠ k)
    (v : α) (l : List (String × α)) :
    alookup k' (asetKey k v l) = alookup k' l := by
  induction l with
  | nil => simp [asetKey]
  | cons q rest ih =>
    obtain ⟨k'', w⟩ := q
    rw [asetKey]
    by_cases hk : k'' = k
    · rw [if_pos hk]
      have hne2 : k'' ≠ k' := by
        rw [hk]; exact fun h => hne h.symm
      rw [alookup, if_neg hne2, alookup, if_neg hne2]
    · rw [if_neg hk, alookup, alookup]
      by_cases hk2 : k'' = k'
      · rw [if_pos hk2, if_pos hk2]
      · rw [if_neg hk2, if_neg hk2, ih]

theorem akeys_asetKey {α : Type} (k : String) (v : α) (l : List (String × α)) :
    akeys (asetKey k v l) = akeys l := by
  induction l with
  | nil => rfl
  | cons q rest ih =>
    obtain ⟨k', w⟩ := q
    rw [asetKey]
    by_cases hk : k' = k
    · rw [if_pos hk]
      simp [akeys]
    · rw [if_neg hk]
      simp only [akeys, List.map_cons] at ih ⊢
      rw [ih]

theorem mem_asetKey {α : Type} {p : String × α} {k : String} {v : α}
    {l : List (String × α)} (h : p ∈ asetKey k v l) : p ∈ l ∨ p = (k, v) := by
  induction l with
  | nil => simp [asetKey] at h
  | cons q rest ih =>
    obtain ⟨k', w⟩ := q
    by_cases hk : k' = k
    · rw [asetKey, if_pos hk] at h
      rcases List.mem_cons.mp h with rfl | h'
      · right; rw [hk]
      · left; exact List.mem_cons_of_mem _ h'
    · rw [asetKey, if_neg hk] at h
      rcases List.mem_cons.mp h with rfl | h'
      · left; exact List.mem_cons_self _ _
      · rcases ih h' with h'' | h''
        · left; exact List.mem_cons_of_mem _ h''
        · right; exact h''

theorem aeraseKey_sublist {α : Type} (k : String) (l : List (String × α)) :
    (aeraseKey k l).Sublist l := by
  induction l with
  | nil => simp [aeraseKey]
  | cons q rest ih =>
    obtain ⟨k', w⟩ := q
    by_cases hk : k' = k
    · rw [aeraseKey, if_pos hk]
      exact (List.sublist_cons_self _ _)
    · rw [aeraseKey, if_neg hk]
      exact ih.cons₂ _

theorem akeys_aeraseKey_sublist {α : Type} (k : String) (l : List (String × α)) :
    (akeys (aeraseKey k l)).Sublist (akeys l) :=
  (aeraseKey_sublist k l).map Prod.fst

theorem alookup_aeraseKey_ne {α : Type} {k k' : String} (hne : k' ≠ k)
    (l : List (String × α)) :
    alookup k' (aeraseKey k l) = alookup k' l := by
  induction l with
  | nil => simp [aeraseKey]
  | cons q rest ih =>
    obtain ⟨k'', w⟩ := q
    rw [aeraseKey]
    by_cases hk : k'' = k
    · rw [if_pos hk]
      have hne2 : k'' ≠ k' := by
        rw [hk]; exact fun h => hne h.symm
      rw [alookup, if_neg hne2]
    · rw [if_neg hk, alookup, alookup]
      by_cases hk2 : k'' = k'
      · rw [if_pos hk2, if_pos hk2]
      · rw [if_neg hk2, if_neg hk2, ih]

theorem alookup_aeraseKey_self {α : Type} {k : String} {l : List (String × α)}
    (h : (akeys l).Nodup) : alookup k (aeraseKey k l) = none := by
  induction l with
  | nil => simp [aeraseKey, alookup]
  | cons q rest ih =>
    obtain ⟨k', w⟩ := q
    simp only [akeys, List.map_cons, List.nodup_cons] at h
    by_cases hk : k' = k
    · rw [aeraseKey, if_pos hk, alookup_eq_none_iff]
      rw [hk] at h
      exact h.1
    · rw [aeraseKey, if_neg hk, alookup, if_neg hk]
      exact ih h.2

theorem verase_sublist {α : Type} [DecidableEq α] (x : α) (l : List α) :
    (verase x l).Sublist l := by
  induction l with
  | nil => simp [verase]
  | cons y rest ih =>
    by_cases hy : y = x
    · rw [verase, if_pos hy]
      exact List.sublist_cons_self _ _
    · rw [verase, if_neg hy]
      exact ih.cons₂ _

theorem mem_verase_of_nodup {α : Type} [DecidableEq α] {x q : α} {l : List α}
    (h : l.Nodup) : q ∈ verase x l ↔ q ∈ l ∧ q ≠ x := by
  induction l with
  | nil => simp [verase]
  | cons y rest ih =>
    obtain ⟨hy, hrest⟩ := List.nodup_cons.mp h
    by_cases hx : y = x
    · subst hx
      rw [verase, if_pos rfl]
      constructor
      · intro hq
        exact ⟨List.mem_cons_of_mem _ hq, fun hqy => hy (hqy ▸ hq)⟩
      · rintro ⟨hq, hne⟩
        rcases List.mem_cons.mp hq with rfl | hq'
        · exact absurd rfl hne
        · exact hq'
    · rw [verase, if_neg hx]
      constructor
      · intro hq
        rcases List.mem_cons.mp hq with rfl | hq'
        · exact ⟨List.mem_cons_self _ _, fun hqx => hx hqx⟩
        · obtain ⟨h1, h2⟩ := (ih hrest).mp hq'
          exact ⟨List.mem_cons_of_mem _ h1, h2⟩
      · rintro ⟨hq, hne⟩
        rcases List.mem_cons.mp hq with rfl | hq'
        · exact List.mem_cons_self _ _
        · exact List.mem_cons_of_mem _ ((ih hrest).mpr ⟨hq', hne⟩)

theorem alookup_filter_of_passes {α : Type} {P : String × α → Bool}
    {k : String} {v : α} {l : List (String × α)}
    (hl : (akeys l).Nodup) (h : alookup k l = some v) (hp : P (k, v) = true) :
    alookup k (l.filter P) = some v := by
  induction l with
  | nil => simp [alookup] at h
  | cons q rest ih =>
    obtain ⟨k', w⟩ := q
    simp only [akeys, List.map_cons, List.nodup_cons] at hl
    by_cases hk : k' = k
    · subst hk
      rw [alookup, if_pos rfl] at h
      cases h
      rw [List.filter_cons, if_pos hp, alookup, if_pos rfl]
    · rw [alookup, if_neg hk] at h
      rw [List.filter_cons]
      by_cases hq : P (k', w) = true
      · rw [if_pos hq, alookup, if_neg hk]
        exact ih hl.2 h
      · rw [if_neg hq]
        exact ih hl.2 h

theorem alookup_filter_isNone {α : Type} {P : String × α → Bool}
    {k : String} {l : List (String × α)} (h : alookup k l = none) :
    alookup k (l.filter P) = none := by
  rw [alookup_eq_none_iff] at h ⊢
  intro hmem
  apply h
  obtain ⟨p, hp, hpk⟩ := List.mem_map.mp hmem
  exact List.mem_map.mpr ⟨p, List.mem_of_mem_filter hp, hpk⟩

/-! ## Equivalence kit: unbounded characterizations and basic facts -/

/-- The unbounded version of `TableEquiv`: quantifiers over all keys. -/
def TableEquivU (t u : TableDef) : Prop :=
  (∀ c, alookup c t.columns = alookup c u.columns) ∧
  (∀ p, p ∈ t.indexes ↔ p ∈ u.indexes) ∧
  (∀ p, p ∈ t.foreignKeys ↔ p ∈ u.foreignKeys)

theorem tableEquiv_iff_u (t u : TableDef) : TableEquiv t u ↔ TableEquivU t u := by
  constructor
  · rintro ⟨hc, hi, hf⟩
    refine ⟨?_, ?_, ?_⟩
    · intro c
      by_cases hm : c ∈ akeys t.columns ++ akeys u.columns
      · exact hc c hm
      · rw [List.mem_append] at hm
        push_neg at hm
        rw [(alookup_eq_none_iff c t.columns).mpr hm.1,
          (alookup_eq_none_iff c u.columns).mpr hm.2]
    · intro p
      by_cases hm : p ∈ t.indexes ++ u.indexes
      · exact hi p hm
      · rw [List.mem_append] at hm
        push_neg at hm
        simp [hm.1, hm.2]
    · intro p
      by_cases hm : p ∈ t.foreignKeys ++ u.foreignKeys
      · exact hf p hm
      · rw [List.mem_append] at hm
        push_neg at hm
        simp [hm.1, hm.2]
  · rintro ⟨hc, hi, hf⟩
    exact ⟨fun c _ => hc c, fun p _ => hi p, fun p _ => hf p⟩

/-- The unbounded version of `SnapshotEquiv`. -/
def SnapshotEquivU (s u : Snapshot) : Prop :=
  ∀ n, optTableEquiv (alookup n s) (alookup n u)

theorem snapshotEquiv_iff_u (s u : Snapshot) :
    SnapshotEquiv s u ↔ SnapshotEquivU s u := by
  constructor
  · intro h n
    by_cases hm : n ∈ akeys s ++ akeys u
    · exact h n hm
    · rw [List.mem_append] at hm
      push_neg at hm
      rw [(alookup_eq_none_iff n s).mpr hm.1, (alookup_eq_none_iff n u).mpr hm.2]
      trivial
  · intro h n _
    exact h n

theorem tableEquivU_refl (t : TableDef) : TableEquivU t t :=
  ⟨fun _ => rfl, fun _ => Iff.rfl, fun _ => Iff.rfl⟩

theorem tableEquivU_symm {t u : TableDef} (h : TableEquivU t u) : TableEquivU u t :=
  ⟨fun c => (h.1 c).symm, fun p => (h.2.1 p).symm, fun p => (h.2.2 p).symm⟩

theorem snapshotEquivU_refl (s : Snapshot) : SnapshotEquivU s s := by
  intro n
  cases alookup n s
  · trivial
  · exact tableEquivU_refl _ |> (tableEquiv_iff_u _ _).mpr

theorem snapshotEquivU_symm {s u : Snapshot} (h : SnapshotEquivU s u) :
    SnapshotEquivU u s := by
  intro n
  have := h n
  cases hs : alookup n s <;> cases hu : alookup n u <;> rw [hs, hu] at this <;>
    first
      | trivial
      | exact this
      | exact (tableEquiv_iff_u _ _).mpr
          (tableEquivU_symm ((tableEquiv_iff_u _ _).mp this))

/-- Transfer of a table lookup across an equivalence. -/
theorem snapshotEquivU_lookup {s u : Snapshot} (h : SnapshotEquivU s u)
    {n : String} {ts : TableDef} (hs : alookup n s = some ts) :
    ∃ tu, alookup n u = some tu ∧ TableEquivU ts tu := by
  have := h n
  rw [hs] at this
  cases hu : alookup n u
  · rw [hu] at this
    cases this
  · rw [hu] at this
    exact ⟨_, rfl, (tableEquiv_iff_u _ _).mp this⟩

theorem snapshotEquivU_lookup_none {s u : Snapshot} (h : SnapshotEquivU s u)
    {n : String} (hs : alookup n s = none) : alookup n u = none := by
  have := h n
  rw [hs] at this
  cases hu : alookup n u
  · rfl
  · rw [hu] at this
    cases this

theorem optTableEquiv_refl (o : Option TableDef) : optTableEquiv o o := by
  cases o
  · trivial
  · exact (tableEquiv_iff_u _ _).mpr (tableEquivU_refl _)

/-! ## The effect of one action (total patch) with its precondition -/

/-- Apply a total table transformation at key `n` (no-op when absent). -/
def patchTable (m : Snapshot) (n : String) (f : TableDef → TableDef) : Snapshot :=
  match alookup n m with
  | none => m
  | some td => asetKey n (f td) m

/-- The table-local effect of one action on a TableDef (`createTable` and
`dropTable` are snapshot-level and leave the table unchanged here). -/
def tpatch (td : TableDef) : Action → TableDef
  | .addColumn _ c cd => { td with columns := td.columns ++ [(c, cd)] }
  | .removeColumn _ c _ => { td with columns := aeraseKey c td.columns }
  | .changeColumn _ c _ newDef => { td with columns := asetKey c newDef td.columns }
  | .addIndex _ nm idx => { td with indexes := td.indexes ++ [(nm, idx)] }
  | .removeIndex _ nm idx => { td with indexes := verase (nm, idx) td.indexes }
  | .addForeignKey _ nm fk => { td with foreignKeys := td.foreignKeys ++ [(nm, fk)] }
  | .removeForeignKey _ nm fk => { td with foreignKeys := verase (nm, fk) td.foreignKeys }
  | _ => td

/-- The total effect of one action on a snapshot (the success case of
`applyAction`). -/
def patch (m : Snapshot) (a : Action) : Snapshot :=
  match a with
  | .createTable n td => m ++ [(n, td)]
  | .dropTable n _ => aeraseKey n m
  | _ => patchTable m a.table (fun td => tpatch td a)

/-- The precondition under which `applyAction` succeeds (matching its
membership and presence checks). -/
def consistent (m : Snapshot) : Action → Prop
  | .createTable n td => alookup n m = none ∧ td.WF
  | .dropTable n _ => (alookup n m).isSome = true
  | .addColumn n c _ => ∃ td, alookup n m = some td ∧ alookup c td.columns = none
  | .removeColumn n c _ => ∃ td, alookup n m = some td ∧ (alookup c td.columns).isSome = true
  | .changeColumn n c _ _ => ∃ td, alookup n m = some td ∧ (alookup c td.columns).isSome = true
  | .addIndex n nm idx => ∃ td, alookup n m = some td ∧ (nm, idx) ∉ td.indexes
  | .removeIndex n nm idx => ∃ td, alookup n m = some td ∧ (nm, idx) ∈ td.indexes
  | .addForeignKey n nm fk => ∃ td, alookup n m = some td ∧ (nm, fk) ∉ td.foreignKeys
  | .removeForeignKey n nm fk => ∃ td, alookup n m = some td ∧ (nm, fk) ∈ td.foreignKeys

/-- Every action of the list is consistent with the state as patched by its
predecessors. -/
def consistentAll : Snapshot → List Action → Prop
  | _, [] => True
  | m, a :: rest => consistent m a ∧ consistentAll (patch m a) rest

/-- The state after patching a whole action list. -/
def patchAll (m : Snapshot) (L : List Action) : Snapshot := L.foldl patch m

theorem patchAll_nil (m : Snapshot) : patchAll m [] = m := rfl

theorem patchAll_cons (m : Snapshot) (a : Action) (L : List Action) :
    patchAll m (a :: L) = patchAll (patch m a) L := rfl

theorem patchAll_append (m : Snapshot) (L₁ L₂ : List Action) :
    patchAll m (L₁ ++ L₂) = patchAll (patchAll m L₁) L₂ := by
  unfold patchAll
  exact List.foldl_append _ _ _ _

theorem consistentAll_append {m : Snapshot} {L₁ L₂ : List Action} :
    consistentAll m (L₁ ++ L₂) ↔
      consistentAll m L₁ ∧ consistentAll (patchAll m L₁) L₂ := by
  induction L₁ generalizing m with
  | nil => simp [consistentAll, patchAll_nil]
  | cons a rest ih =>
    show (consistent m a ∧ consistentAll (patch m a) (rest ++ L₂)) ↔
      (consistent m a ∧ consistentAll (patch m a) rest) ∧
        consistentAll (patchAll (patch m a) rest) L₂
    rw [ih]
    tauto

/-! ## Well-formedness is preserved by consistent patches -/

theorem akeys_append {α : Type} (l₁ l₂ : List (String × α)) :
    akeys (l₁ ++ l₂) = akeys l₁ ++ akeys l₂ :=
  List.map_append _ _ _

theorem wf_table_addColumn {td : TableDef} (h : td.WF) {c : String}
    (hc : alookup c td.columns = none) (cd : ColumnDef) :
    TableDef.WF { td with columns := td.columns ++ [(c, cd)] } := by
  refine ⟨?_, h.2.1, h.2.2⟩
  show (akeys (td.columns ++ [(c, cd)])).Nodup
  rw [akeys_append]
  rw [alookup_eq_none_iff] at hc
  refine List.Nodup.append h.1 (List.nodup_singleton c) ?_
  intro a ha hb
  rw [show akeys [(c, cd)] = [c] from rfl, List.mem_singleton] at hb
  subst hb
  exact hc ha

theorem wf_table_removeColumn {td : TableDef} (h : td.WF) (c : String) :
    TableDef.WF { td with columns := aeraseKey c td.columns } :=
  ⟨(akeys_aeraseKey_sublist c td.columns).nodup h.1, h.2.1, h.2.2⟩

theorem wf_table_changeColumn {td : TableDef} (h : td.WF) (c : String)
    (cd : ColumnDef) :
    TableDef.WF { td with columns := asetKey c cd td.columns } := by
  refine ⟨?_, h.2.1, h.2.2⟩
  show (akeys (asetKey c cd td.columns)).Nodup
  rw [akeys_asetKey]
  exact h.1

theorem wf_table_addIndex {td : TableDef} (h : td.WF) {nm : String}
    {idx : IndexDef} (hmem : (nm, idx) ∉ td.indexes) :
    TableDef.WF { td with indexes := td.indexes ++ [(nm, idx)] } := by
  refine ⟨h.1, ?_, h.2.2⟩
  show (td.indexes ++ [(nm, idx)]).Nodup
  refine List.Nodup.append h.2.1 (List.nodup_singleton _) ?_
  intro a ha hb
  rw [List.mem_singleton] at hb
  subst hb
  exact hmem ha

theorem wf_table_removeIndex {td : TableDef} (h : td.WF) (q : String × IndexDef) :
    TableDef.WF { td with indexes := verase q td.indexes } :=
  ⟨h.1, (verase_sublist q td.indexes).nodup h.2.1, h.2.2⟩

theorem wf_table_addFK {td : TableDef} (h : td.WF) {nm : String}
    {fk : ForeignKeyDef} (hmem : (nm, fk) ∉ td.foreignKeys) :
    TableDef.WF { td with foreignKeys := td.foreignKeys ++ [(nm, fk)] } := by
  refine ⟨h.1, h.2.1, ?_⟩
  show (td.foreignKeys ++ [(nm, fk)]).Nodup
  refine List.Nodup.append h.2.2 (List.nodup_singleton _) ?_
  intro a ha hb
  rw [List.mem_singleton] at hb
  subst hb
  exact hmem ha

theorem wf_table_removeFK {td : TableDef} (h : td.WF)
    (q : String × ForeignKeyDef) :
    TableDef.WF { td with foreignKeys := verase q td.foreignKeys } :=
  ⟨h.1, h.2.1, (verase_sublist q td.foreignKeys).nodup h.2.2⟩

theorem wf_asetKey {m : Snapshot} (h : m.WF) {n : String} {td : TableDef}
    (htd : td.WF) : Snapshot.WF (asetKey n td m) := by
  refine ⟨?_, ?_⟩
  · rw [akeys_asetKey]
    exact h.1
  · intro p hp
    rcases mem_asetKey hp with h1 | h1
    · exact h.2 p h1
    · rw [h1]
      exact htd

theorem wf_aeraseKey {m : Snapshot} (h : m.WF) (n : String) :
    Snapshot.WF (aeraseKey n m) :=
  ⟨(akeys_aeraseKey_sublist n m).nodup h.1,
   fun p hp => h.2 p ((aeraseKey_sublist n m).subset hp)⟩

theorem wf_snapshot_append {m : Snapshot} (h : m.WF) {n : String}
    {td : TableDef} (hn : alookup n m = none) (htd : td.WF) :
    Snapshot.WF (m ++ [(n, td)]) := by
  refine ⟨?_, ?_⟩
  · show (akeys (m ++ [(n, td)])).Nodup
    rw [akeys_append]
    rw [alookup_eq_none_iff] at hn
    refine List.Nodup.append h.1 (List.nodup_singleton _) ?_
    intro a ha hb
    rw [show akeys [(n, td)] = [n] from rfl, List.mem_singleton] at hb
    subst hb
    exact hn ha
  · intro p hp
    rcases List.mem_append.mp hp with h1 | h1
    · exact h.2 p h1
    · simp at h1
      rw [h1]
      exact htd

/-! ## Equivalence is preserved by matching table operations -/

theorem tableEquivU_addColumn {t u : TableDef} (h : TableEquivU t u)
    (c : String) (cd : ColumnDef) :
    TableEquivU { t with columns := t.columns ++ [(c, cd)] }
      { u with columns := u.columns ++ [(c, cd)] } := by
  refine ⟨?_, h.2.1, h.2.2⟩
  intro k
  show alookup k (t.columns ++ [(c, cd)]) = alookup k (u.columns ++ [(c, cd)])
  rw [alookup_append, alookup_append, h.1 k]

theorem tableEquivU_removeColumn {t u : TableDef} (h : TableEquivU t u)
    (ht : (akeys t.columns).Nodup) (hu : (akeys u.columns).Nodup) (c : String) :
    TableEquivU { t with columns := aeraseKey c t.columns }
      { u with columns := aeraseKey c u.columns } := by
  refine ⟨?_, h.2.1, h.2.2⟩
  intro k
  show alookup k (aeraseKey c t.columns) = alookup k (aeraseKey c u.columns)
  by_cases hk : k = c
  · subst hk
    rw [alookup_aeraseKey_self ht, alookup_aeraseKey_self hu]
  · rw [alookup_aeraseKey_ne hk, alookup_aeraseKey_ne hk, h.1 k]

theorem tableEquivU_changeColumn {t u : TableDef} (h : TableEquivU t u)
    {c : String} (hc : (alookup c t.columns).isSome = true) (cd : ColumnDef) :
    TableEquivU { t with columns := asetKey c cd t.columns }
      { u with columns := asetKey c cd u.columns } := by
  refine ⟨?_, h.2.1, h.2.2⟩
  intro k
  show alookup k (asetKey c cd t.columns) = alookup k (asetKey c cd u.columns)
  by_cases hk : k = c
  · subst hk
    have hu : (alookup k u.columns).isSome = true := by
      rw [← h.1 k]
      exact hc
    rw [alookup_asetKey_self _ hc, alookup_asetKey_self _ hu]
  · rw [alookup_asetKey_ne hk, alookup_asetKey_ne hk, h.1 k]

theorem tableEquivU_addIndex {t u : TableDef} (h : TableEquivU t u)
    (nm : String) (idx : IndexDef) :
    TableEquivU { t with indexes := t.indexes ++ [(nm, idx)] }
      { u with indexes := u.indexes ++ [(nm, idx)] } := by
  refine ⟨h.1, ?_, h.2.2⟩
  intro p
  show p ∈ t.indexes ++ [(nm, idx)] ↔ p ∈ u.indexes ++ [(nm, idx)]
  simp [h.2.1 p]

theorem tableEquivU_removeIndex {t u : TableDef} (h : TableEquivU t u)
    (ht : t.indexes.Nodup) (hu : u.indexes.Nodup) (q : String × IndexDef) :
    TableEquivU { t with indexes := verase q t.indexes }
      { u with indexes := verase q u.indexes } := by
  refine ⟨h.1, ?_, h.2.2⟩
  intro p
  show p ∈ verase q t.indexes ↔ p ∈ verase q u.indexes
  rw [mem_verase_of_nodup ht, mem_verase_of_nodup hu, h.2.1 p]

theorem tableEquivU_addFK {t u : TableDef} (h : TableEquivU t u)
    (nm : String) (fk : ForeignKeyDef) :
    TableEquivU { t with foreignKeys := t.foreignKeys ++ [(nm, fk)] }
      { u with foreignKeys := u.foreignKeys ++ [(nm, fk)] } := by
  refine ⟨h.1, h.2.1, ?_⟩
  intro p
  show p ∈ t.foreignKeys ++ [(nm, fk)] ↔ p ∈ u.foreignKeys ++ [(nm, fk)]
  simp [h.2.2 p]

theorem tableEquivU_removeFK {t u : TableDef} (h : TableEquivU t u)
    (ht : t.foreignKeys.Nodup) (hu : u.foreignKeys.Nodup)
    (q : String × ForeignKeyDef) :
    TableEquivU { t with foreignKeys := verase q t.foreignKeys }
      { u with foreignKeys := verase q u.foreignKeys } := by
  refine ⟨h.1, h.2.1, ?_⟩
  intro p
  show p ∈ verase q t.foreignKeys ↔ p ∈ verase q u.foreignKeys
  rw [mem_verase_of_nodup ht, mem_verase_of_nodup hu, h.2.2 p]

theorem snapshotEquivU_asetKey {m x : Snapshot} (h : SnapshotEquivU m x)
    {n : String} {tm tx : TableDef}
    (hm : (alookup n m).isSome = true) (hx : (alookup n x).isSome = true)
    (ht : TableEquivU tm tx) :
    SnapshotEquivU (asetKey n tm m) (asetKey n tx x) := by
  intro k
  by_cases hk : k = n
  · subst hk
    rw [alookup_asetKey_self _ hm, alookup_asetKey_self _ hx]
    exact (tableEquiv_iff_u _ _).mpr ht
  · rw [alookup_asetKey_ne hk, alookup_asetKey_ne hk]
    exact h k

theorem patchTable_eq {m : Snapshot} {n : String} {td : TableDef}
    (h : alookup n m = some td) (f : TableDef → TableDef) :
    patchTable m n f = asetKey n (f td) m := by
  unfold patchTable
  rw [h]

theorem modifyTable_eq_some {s : Snapshot} {n : String} {td td' : TableDef}
    (h : alookup n s = some td) {f : TableDef → Option TableDef}
    (hf : f td = some td') :
    modifyTable s n f = some (asetKey n td' s) := by
  unfold modifyTable
  rw [h]
  simp [hf]

theorem mem_of_alookup_eq_some {α : Type} {k : String} {v : α}
    {l : List (String × α)} (h : alookup k l = some v) : (k, v) ∈ l := by
  induction l with
  | nil => cases h
  | cons q rest ih =>
    obtain ⟨k', w⟩ := q
    by_cases hk : k' = k
    · rw [alookup, if_pos hk] at h
      cases h
      subst hk
      exact List.mem_cons_self _ _
    · rw [alookup, if_neg hk] at h
      exact List.mem_cons_of_mem _ (ih h)

theorem wf_table_of_lookup {m : Snapshot} (hm : m.WF) {n : String}
    {td : TableDef} (h : alookup n m = some td) : td.WF :=
  hm.2 (n, td) (mem_of_alookup_eq_some h)

/-! ## The simulation: a consistent action applies successfully to any
equivalent well-formed state and tracks the total patch -/

theorem applyAction_simulates {a : Action} {m x : Snapshot}
    (he : SnapshotEquivU m x) (hm : m.WF) (hx : x.WF) (hc : consistent m a) :
    ∃ x', applyAction x a = some x' ∧ SnapshotEquivU (patch m a) x' ∧
      Snapshot.WF (patch m a) ∧ Snapshot.WF x' := by
  cases a with
  | createTable n td =>
    obtain ⟨hn, htd⟩ := hc
    have hxn : alookup n x = none := snapshotEquivU_lookup_none he hn
    refine ⟨x ++ [(n, td)], ?_, ?_, ?_, ?_⟩
    · show (if (alookup n x).isSome then none else some (x ++ [(n, td)])) = _
      rw [hxn]
      rfl
    · intro k
      show optTableEquiv (alookup k (m ++ [(n, td)])) (alookup k (x ++ [(n, td)]))
      rw [alookup_append, alookup_append]
      cases hkm : alookup k m with
      | none =>
        rw [snapshotEquivU_lookup_none he hkm]
        exact optTableEquiv_refl _
      | some v =>
        obtain ⟨vx, hvx, hvv⟩ := snapshotEquivU_lookup he hkm
        rw [hvx]
        exact (tableEquiv_iff_u _ _).mpr hvv
    · exact wf_snapshot_append hm hn htd
    · exact wf_snapshot_append hx hxn htd
  | dropTable n old =>
    have hxn : (alookup n x).isSome = true := by
      obtain ⟨tm, htm⟩ := Option.isSome_iff_exists.mp hc
      obtain ⟨tx, htx, _⟩ := snapshotEquivU_lookup he htm
      rw [htx]
      rfl
    refine ⟨aeraseKey n x, ?_, ?_, ?_, ?_⟩
    · show (if (alookup n x).isSome then some (aeraseKey n x) else none) = _
      rw [hxn]
      rfl
    · intro k
      show optTableEquiv (alookup k (aeraseKey n m)) (alookup k (aeraseKey n x))
      by_cases hk : k = n
      · subst hk
        rw [alookup_aeraseKey_self hm.1, alookup_aeraseKey_self hx.1]
        trivial
      · rw [alookup_aeraseKey_ne hk, alookup_aeraseKey_ne hk]
        exact he k
    · exact wf_aeraseKey hm n
    · exact wf_aeraseKey hx n
  | addColumn n c cd =>
    obtain ⟨tm, htm, hcol⟩ := hc
    obtain ⟨tx, htx, htu⟩ := snapshotEquivU_lookup he htm
    have hcolx : alookup c tx.columns = none := by
      rw [← htu.1 c]
      exact hcol
    have hwtm := wf_table_of_lookup hm htm
    have hwtx := wf_table_of_lookup hx htx
    have hpatch : patch m (.addColumn n c cd) =
        asetKey n { tm with columns := tm.columns ++ [(c, cd)] } m := by
      show patchTable m n _ = _
      exact patchTable_eq htm _
    have happ : applyAction x (.addColumn n c cd) =
        some (asetKey n { tx with columns := tx.columns ++ [(c, cd)] } x) := by
      show modifyTable x n _ = _
      apply modifyTable_eq_some htx
      rw [hcolx]
      rfl
    refine ⟨_, happ, ?_, ?_, ?_⟩
    · rw [hpatch]
      exact snapshotEquivU_asetKey he (by rw [htm]; rfl) (by rw [htx]; rfl)
        (tableEquivU_addColumn htu c cd)
    · rw [hpatch]
      exact wf_asetKey hm (wf_table_addColumn hwtm hcol cd)
    · exact wf_asetKey hx (wf_table_addColumn hwtx hcolx cd)
  | removeColumn n c old =>
    obtain ⟨tm, htm, hcol⟩ := hc
    obtain ⟨tx, htx, htu⟩ := snapshotEquivU_lookup he htm
    have hcolx : (alookup c tx.columns).isSome = true := by
      rw [← htu.1 c]
      exact hcol
    have hwtm := wf_table_of_lookup hm htm
    have hwtx := wf_table_of_lookup hx htx
    have hpatch : patch m (.removeColumn n c old) =
        asetKey n { tm with columns := aeraseKey c tm.columns } m := by
      show patchTable m n _ = _
      exact patchTable_eq htm _
    have happ : applyAction x (.removeColumn n c old) =
        some (asetKey n { tx with columns := aeraseKey c tx.columns } x) := by
      show modifyTable x n _ = _
      apply modifyTable_eq_some htx
      simp [hcolx]
    refine ⟨_, happ, ?_, ?_, ?_⟩
    · rw [hpatch]
      exact snapshotEquivU_asetKey he (by rw [htm]; rfl) (by rw [htx]; rfl)
        (tableEquivU_removeColumn htu hwtm.1 hwtx.1 c)
    · rw [hpatch]
      exact wf_asetKey hm (wf_table_removeColumn hwtm c)
    · exact wf_asetKey hx (wf_table_removeColumn hwtx c)
  | changeColumn n c old newDef =>
    obtain ⟨tm, htm, hcol⟩ := hc
    obtain ⟨tx, htx, htu⟩ := snapshotEquivU_lookup he htm
    have hcolx : (alookup c tx.columns).isSome = true := by
      rw [← htu.1 c]
      exact hcol
    have hwtm := wf_table_of_lookup hm htm
    have hwtx := wf_table_of_lookup hx htx
    have hpatch : patch m (.changeColumn n c old newDef) =
        asetKey n { tm with columns := asetKey c newDef tm.columns } m := by
      show patchTable m n _ = _
      exact patchTable_eq htm _
    have happ : applyAction x (.changeColumn n c old newDef) =
        some (asetKey n { tx with columns := asetKey c newDef tx.columns } x) := by
      show modifyTable x n _ = _
      apply modifyTable_eq_some htx
      simp [hcolx]
    refine ⟨_, happ, ?_, ?_, ?_⟩
    · rw [hpatch]
      exact snapshotEquivU_asetKey he (by rw [htm]; rfl) (by rw [htx]; rfl)
        (tableEquivU_changeColumn htu hcol newDef)
    · rw [hpatch]
      exact wf_asetKey hm (wf_table_changeColumn hwtm c newDef)
    · exact wf_asetKey hx (wf_table_changeColumn hwtx c newDef)
  | addIndex n nm idx =>
    obtain ⟨tm, htm, hmem⟩ := hc
    obtain ⟨tx, htx, htu⟩ := snapshotEquivU_lookup he htm
    have hmemx : (nm, idx) ∉ tx.indexes := fun hin => hmem ((htu.2.1 _).mpr hin)
    have hwtm := wf_table_of_lookup hm htm
    have hwtx := wf_table_of_lookup hx htx
    have hpatch : patch m (.addIndex n nm idx) =
        asetKey n { tm with indexes := tm.indexes ++ [(nm, idx)] } m := by
      show patchTable m n _ = _
      exact patchTable_eq htm _
    have happ : applyAction x (.addIndex n nm idx) =
        some (asetKey n { tx with indexes := tx.indexes ++ [(nm, idx)] } x) := by
      show modifyTable x n _ = _
      apply modifyTable_eq_some htx
      simp [hmemx]
    refine ⟨_, happ, ?_, ?_, ?_⟩
    · rw [hpatch]
      exact snapshotEquivU_asetKey he (by rw [htm]; rfl) (by rw [htx]; rfl)
        (tableEquivU_addIndex htu nm idx)
    · rw [hpatch]
      exact wf_asetKey hm (wf_table_addIndex hwtm hmem)
    · exact wf_asetKey hx (wf_table_addIndex hwtx hmemx)
  | removeIndex n nm idx =>
    obtain ⟨tm, htm, hmem⟩ := hc
    obtain ⟨tx, htx, htu⟩ := snapshotEquivU_lookup he htm
    have hmemx : (nm, idx) ∈ tx.indexes := (htu.2.1 _).mp hmem
    have hwtm := wf_table_of_lookup hm htm
    have hwtx := wf_table_of_lookup hx htx
    have hpatch : patch m (.removeIndex n nm idx) =
        asetKey n { tm with indexes := verase (nm, idx) tm.indexes } m := by
      show patchTable m n _ = _
      exact patchTable_eq htm _
    have happ : applyAction x (.removeIndex n nm idx) =
        some (asetKey n { tx with indexes := verase (nm, idx) tx.indexes } x) := by
      show modifyTable x n _ = _
      apply modifyTable_eq_some htx
      simp [hmemx]
    refine ⟨_, happ, ?_, ?_, ?_⟩
    · rw [hpatch]
      exact snapshotEquivU_asetKey he (by rw [htm]; rfl) (by rw [htx]; rfl)
        (tableEquivU_removeIndex htu hwtm.2.1 hwtx.2.1 (nm, idx))
    · rw [hpatch]
      exact wf_asetKey hm (wf_table_removeIndex hwtm (nm, idx))
    · exact wf_asetKey hx (wf_table_removeIndex hwtx (nm, idx))
  | addForeignKey n nm fk =>
    obtain ⟨tm, htm, hmem⟩ := hc
    obtain ⟨tx, htx, htu⟩ := snapshotEquivU_lookup he htm
    have hmemx : (nm, fk) ∉ tx.foreignKeys := fun hin => hmem ((htu.2.2 _).mpr hin)
    have hwtm := wf_table_of_lookup hm htm
    have hwtx := wf_table_of_lookup hx htx
    have hpatch : patch m (.addForeignKey n nm fk) =
        asetKey n { tm with foreignKeys := tm.foreignKeys ++ [(nm, fk)] } m := by
      show patchTable m n _ = _
      exact patchTable_eq htm _
    have happ : applyAction x (.addForeignKey n nm fk) =
        some (asetKey n { tx with foreignKeys := tx.foreignKeys ++ [(nm, fk)] } x) := by
      show modifyTable x n _ = _
      apply modifyTable_eq_some htx
      simp [hmemx]
    refine ⟨_, happ, ?_, ?_, ?_⟩
    · rw [hpatch]
      exact snapshotEquivU_asetKey he (by rw [htm]; rfl) (by rw [htx]; rfl)
        (tableEquivU_addFK htu nm fk)
    · rw [hpatch]
      exact wf_asetKey hm (wf_table_addFK hwtm hmem)
    · exact wf_asetKey hx (wf_table_addFK hwtx hmemx)
  | removeForeignKey n nm fk =>
    obtain ⟨tm, htm, hmem⟩ := hc
    obtain ⟨tx, htx, htu⟩ := snapshotEquivU_lookup he htm
    have hmemx : (nm, fk) ∈ tx.foreignKeys := (htu.2.2 _).mp hmem
    have hwtm := wf_table_of_lookup hm htm
    have hwtx := wf_table_of_lookup hx htx
    have hpatch : patch m (.removeForeignKey n nm fk) =
        asetKey n { tm with foreignKeys := verase (nm, fk) tm.foreignKeys } m := by
      show patchTable m n _ = _
      exact patchTable_eq htm _
    have happ : applyAction x (.removeForeignKey n nm fk) =
        some (asetKey n { tx with foreignKeys := verase (nm, fk) tx.foreignKeys } x) := by
      show modifyTable x n _ = _
      apply modifyTable_eq_some htx
      simp [hmemx]
    refine ⟨_, happ, ?_, ?_, ?_⟩
    · rw [hpatch]
      exact snapshotEquivU_asetKey he (by rw [htm]; rfl) (by rw [htx]; rfl)
        (tableEquivU_removeFK htu hwtm.2.2 hwtx.2.2 (nm, fk))
    · rw [hpatch]
      exact wf_asetKey hm (wf_table_removeFK hwtm (nm, fk))
    · exact wf_asetKey hx (wf_table_removeFK hwtx (nm, fk))

theorem applyActions_simulates : ∀ (L : List Action) (m x : Snapshot),
    SnapshotEquivU m x → m.WF → x.WF → consistentAll m L →
    ∃ x', applyActions x L = some x' ∧ SnapshotEquivU (patchAll m L) x' ∧
      Snapshot.WF (patchAll m L) ∧ Snapshot.WF x'
  | [], m, x, he, hm, hx, _ =>
    ⟨x, rfl, by rw [patchAll_nil]; exact he, by rw [patchAll_nil]; exact hm, hx⟩
  | a :: L, m, x, he, hm, hx, hc => by
    obtain ⟨hca, hcl⟩ := hc
    obtain ⟨x₁, happ, he₁, hwm₁, hwx₁⟩ := applyAction_simulates he hm hx hca
    obtain ⟨x', happs, he', hwm', hwx'⟩ :=
      applyActions_simulates L (patch m a) x₁ he₁ hwm₁ hwx₁ hcl
    refine ⟨x', ?_, he', hwm', hwx'⟩
    show (match applyAction x a with
      | none => none
      | some s' => applyActions s' L) = some x'
    rw [happ]
    exact happs

/-! ## More list lemmas towards the diff consistency proof -/

theorem asetKey_asetKey {α : Type} (k : String) (v₁ v₂ : α)
    (l : List (String × α)) :
    asetKey k v₂ (asetKey k v₁ l) = asetKey k v₂ l := by
  induction l with
  | nil => rfl
  | cons q rest ih =>
    obtain ⟨k', w⟩ := q
    by_cases hk : k' = k
    · rw [asetKey, if_pos hk, asetKey, if_pos hk, asetKey, if_pos hk]
    · rw [asetKey, if_neg hk, asetKey, if_neg hk, asetKey, if_neg hk, ih]

theorem alookup_of_mem_nodup {α : Type} {l : List (String × α)}
    (hl : (akeys l).Nodup) {k : String} {v : α} (h : (k, v) ∈ l) :
    alookup k l = some v := by
  induction l with
  | nil => cases h
  | cons q rest ih =>
    obtain ⟨k', w⟩ := q
    simp only [akeys, List.map_cons, List.nodup_cons] at hl
    rcases List.mem_cons.mp h with heq | h'
    · cases heq
      rw [alookup, if_pos rfl]
    · have hk : k' ≠ k := by
        intro hkk
        subst hkk
        exact hl.1 (List.mem_map.mpr ⟨(k', v), h', rfl⟩)
      rw [alookup, if_neg hk]
      exact ih hl.2 h'

theorem akeys_filter_sublist {α : Type} (P : String × α → Bool)
    (l : List (String × α)) : (akeys (l.filter P)).Sublist (akeys l) :=
  (List.filter_sublist l).map Prod.fst

/-- Erase a list of keys from an association list, in order. -/
def eraseKeys {α : Type} (ks : List String) (l : List (String × α)) :
    List (String × α) :=
  ks.foldl (fun cs k => aeraseKey k cs) l

theorem eraseKeys_nil {α : Type} (l : List (String × α)) : eraseKeys [] l = l := rfl

theorem eraseKeys_cons {α : Type} (k : String) (ks : List String)
    (l : List (String × α)) :
    eraseKeys (k :: ks) l = eraseKeys ks (aeraseKey k l) := rfl

theorem akeys_eraseKeys_sublist {α : Type} (ks : List String)
    (l : List (String × α)) : (akeys (eraseKeys ks l)).Sublist (akeys l) := by
  induction ks generalizing l with
  | nil => exact List.Sublist.refl _
  | cons k ks ih =>
    rw [eraseKeys_cons]
    exact (ih _).trans (akeys_aeraseKey_sublist k l)

theorem alookup_eraseKeys {α : Type} : ∀ (ks : List String)
    (l : List (String × α)), (akeys l).Nodup → ∀ (c : String),
    alookup c (eraseKeys ks l) = if c ∈ ks then none else alookup c l
  | [], l, _, c => by simp [eraseKeys_nil]
  | k :: ks, l, hl, c => by
    rw [eraseKeys_cons,
      alookup_eraseKeys ks (aeraseKey k l) ((akeys_aeraseKey_sublist k l).nodup hl) c]
    by_cases hc : c ∈ ks
    · simp [hc, List.mem_cons]
    · by_cases hck : c = k
      · subst hck
        simp [hc, alookup_aeraseKey_self hl]
      · simp [hc, hck, alookup_aeraseKey_ne hck]

/-- Overwrite a list of (key, new value) pairs in an association list, in
order. -/
def setKeys {α : Type} (chs : List (String × α)) (l : List (String × α)) :
    List (String × α) :=
  chs.foldl (fun cs q => asetKey q.1 q.2 cs) l

theorem setKeys_nil {α : Type} (l : List (String × α)) : setKeys [] l = l := rfl

theorem setKeys_cons {α : Type} (q : String × α) (chs : List (String × α))
    (l : List (String × α)) :
    setKeys (q :: chs) l = setKeys chs (asetKey q.1 q.2 l) := rfl

theorem akeys_setKeys {α : Type} : ∀ (chs : List (String × α))
    (l : List (String × α)), akeys (setKeys chs l) = akeys l
  | [], _ => rfl
  | q :: chs, l => by
    rw [setKeys_cons, akeys_setKeys chs _, akeys_asetKey]

theorem alookup_setKeys {α : Type} : ∀ (chs : List (String × α))
    (l : List (String × α)), (akeys chs).Nodup →
    (∀ q ∈ chs, (alookup q.1 l).isSome = true) → ∀ (c : String),
    alookup c (setKeys chs l) =
      match alookup c chs with
      | some v => some v
      | none => alookup c l
  | [], l, _, _, c => by simp [setKeys_nil, alookup]
  | q :: chs, l, hch, hpres, c => by
    obtain ⟨k, v⟩ := q
    simp only [akeys, List.map_cons, List.nodup_cons] at hch
    have hpres' : ∀ r ∈ chs, (alookup r.1 (asetKey k v l)).isSome = true := by
      intro r hr
      have hrk : r.1 ≠ k := by
        intro hrk
        exact hch.1 (List.mem_map.mpr ⟨r, hr, hrk⟩)
      rw [alookup_asetKey_ne hrk]
      exact hpres r (List.mem_cons_of_mem _ hr)
    rw [setKeys_cons, alookup_setKeys chs _ hch.2 hpres' c]
    by_cases hck : c = k
    · subst hck
      have hnone : alookup c chs = none := by
        rw [alookup_eq_none_iff]
        exact hch.1
      rw [hnone, alookup, if_pos rfl,
        alookup_asetKey_self v (hpres (c, v) (List.mem_cons_self _ _))]
    · rw [alookup, if_neg (fun h => hck h.symm), alookup_asetKey_ne hck]

/-- Erase a list of values (each at most once, in order). -/
def eraseVals {α : Type} [DecidableEq α] (rs : List α) (l : List α) : List α :=
  rs.foldl (fun cs r => verase r cs) l

theorem eraseVals_nil {α : Type} [DecidableEq α] (l : List α) :
    eraseVals [] l = l := rfl

theorem eraseVals_cons {α : Type} [DecidableEq α] (r : α) (rs : List α)
    (l : List α) : eraseVals (r :: rs) l = eraseVals rs (verase r l) := rfl

theorem eraseVals_sublist {α : Type} [DecidableEq α] : ∀ (rs : List α)
    (l : List α), (eraseVals rs l).Sublist l
  | [], _ => List.Sublist.refl _
  | r :: rs, l => by
    rw [eraseVals_cons]
    exact (eraseVals_sublist rs _).trans (verase_sublist r l)

theorem mem_eraseVals {α : Type} [DecidableEq α] : ∀ (rs : List α)
    (l : List α), l.Nodup → ∀ (p : α),
    p ∈ eraseVals rs l ↔ p ∈ l ∧ p ∉ rs
  | [], l, _, p => by simp [eraseVals_nil]
  | r :: rs, l, hl, p => by
    rw [eraseVals_cons,
      mem_eraseVals rs (verase r l) ((verase_sublist r l).nodup hl) p,
      mem_verase_of_nodup hl]
    simp only [List.mem_cons]
    tauto

/-- The stripped foreign keys and the deferred foreign keys partition the
original list, membership-wise. -/
theorem mem_kept_or_deferred {fks : List (String × ForeignKeyDef)}
    {newNames : List String} {p : String × ForeignKeyDef} :
    p ∈ fks.filter (fun fk => fk.2.refTable ∉ newNames) ++
        fks.filter (fun fk => fk.2.refTable ∈ newNames) ↔ p ∈ fks := by
  simp only [List.mem_append, List.mem_filter]
  by_cases h : p.2.refTable ∈ newNames <;> simp [h]

/-- `keptForeignKeys` preserves table well-formedness. -/
theorem wf_keptForeignKeys {newNames : List String} {td : TableDef}
    (h : td.WF) : TableDef.WF (keptForeignKeys newNames td) :=
  ⟨h.1, h.2.1, (List.filter_sublist _).nodup h.2.2⟩

theorem asetKey_self_of_lookup {α : Type} {k : String} {v : α}
    {l : List (String × α)} (h : alookup k l = some v) :
    asetKey k v l = l := by
  induction l with
  | nil => rfl
  | cons q rest ih =>
    obtain ⟨k', w⟩ := q
    by_cases hk : k' = k
    · rw [alookup, if_pos hk] at h
      cases h
      rw [asetKey, if_pos hk]
    · rw [alookup, if_neg hk] at h
      rw [asetKey, if_neg hk, ih h]

/-! ## Per-table action groups: consistency and resulting table shape -/

theorem addCols_phase : ∀ (pairs : List (String × ColumnDef)) (M : Snapshot)
    (n : String) (td : TableDef), alookup n M = some td →
    (∀ q ∈ pairs, alookup q.1 td.columns = none) → (akeys pairs).Nodup →
    consistentAll M (pairs.map (fun q => Action.addColumn n q.1 q.2)) ∧
    patchAll M (pairs.map (fun q => Action.addColumn n q.1 q.2)) =
      asetKey n { td with columns := td.columns ++ pairs } M
  | [], M, n, td, hM, _, _ => by
    refine ⟨trivial, ?_⟩
    show M = asetKey n { td with columns := td.columns ++ [] } M
    rw [List.append_nil]
    exact (asetKey_self_of_lookup hM).symm
  | (c, cd) :: pairs, M, n, td, hM, hfresh, hnodup => by
    simp only [akeys, List.map_cons, List.nodup_cons] at hnodup
    have hc : alookup c td.columns = none := hfresh (c, cd) (List.mem_cons_self _ _)
    have hpatch : patch M (Action.addColumn n c cd) =
        asetKey n { td with columns := td.columns ++ [(c, cd)] } M := by
      show patchTable M n _ = _
      exact patchTable_eq hM _
    have hM₁ : alookup n (asetKey n { td with columns := td.columns ++ [(c, cd)] } M) =
        some { td with columns := td.columns ++ [(c, cd)] } :=
      alookup_asetKey_self _ (by rw [hM]; rfl)
    have hfresh' : ∀ q ∈ pairs,
        alookup q.1 (TableDef.columns { td with columns := td.columns ++ [(c, cd)] }) = none := by
      intro q hq
      show alookup q.1 (td.columns ++ [(c, cd)]) = none
      rw [alookup_append, hfresh q (List.mem_cons_of_mem _ hq)]
      have hqc : c ≠ q.1 := by
        intro h
        exact hnodup.1 (List.mem_map.mpr ⟨q, hq, h.symm⟩)
      simp [alookup, hqc]
    obtain ⟨ihc, ihp⟩ := addCols_phase pairs _ n _ hM₁ hfresh' hnodup.2
    refine ⟨⟨⟨td, hM, hc⟩, ?_⟩, ?_⟩
    · rw [hpatch]
      exact ihc
    · show patchAll (patch M (Action.addColumn n c cd)) _ = _
      rw [hpatch, ihp, asetKey_asetKey]
      show asetKey n { td with columns := (td.columns ++ [(c, cd)]) ++ pairs } M = _
      rw [List.append_assoc]
      rfl

theorem removeCols_phase : ∀ (pairs : List (String × ColumnDef)) (M : Snapshot)
    (n : String) (td : TableDef), alookup n M = some td →
    (∀ q ∈ pairs, (alookup q.1 td.columns).isSome = true) → (akeys pairs).Nodup →
    consistentAll M (pairs.map (fun q => Action.removeColumn n q.1 q.2)) ∧
    patchAll M (pairs.map (fun q => Action.removeColumn n q.1 q.2)) =
      asetKey n { td with columns := eraseKeys (akeys pairs) td.columns } M
  | [], M, n, td, hM, _, _ =>
    ⟨trivial, (asetKey_self_of_lookup hM).symm⟩
  | (c, cd) :: pairs, M, n, td, hM, hpres, hnodup => by
    simp only [akeys, List.map_cons, List.nodup_cons] at hnodup
    have hc : (alookup c td.columns).isSome = true :=
      hpres (c, cd) (List.mem_cons_self _ _)
    have hpatch : patch M (Action.removeColumn n c cd) =
        asetKey n { td with columns := aeraseKey c td.columns } M := by
      show patchTable M n _ = _
      exact patchTable_eq hM _
    have hM₁ : alookup n (asetKey n { td with columns := aeraseKey c td.columns } M) =
        some { td with columns := aeraseKey c td.columns } :=
      alookup_asetKey_self _ (by rw [hM]; rfl)
    have hpres' : ∀ q ∈ pairs,
        (alookup q.1 (TableDef.columns { td with columns := aeraseKey c td.columns })).isSome = true := by
      intro q hq
      show (alookup q.1 (aeraseKey c td.columns)).isSome = true
      have hqc : q.1 ≠ c := by
        intro h
        exact hnodup.1 (List.mem_map.mpr ⟨q, hq, h⟩)
      rw [alookup_aeraseKey_ne hqc]
      exact hpres q (List.mem_cons_of_mem _ hq)
    obtain ⟨ihc, ihp⟩ := removeCols_phase pairs _ n _ hM₁ hpres' hnodup.2
    refine ⟨⟨⟨td, hM, hc⟩, ?_⟩, ?_⟩
    · rw [hpatch]
      exact ihc
    · show patchAll (patch M (Action.removeColumn n c cd)) _ = _
      rw [hpatch, ihp, asetKey_asetKey]
      rfl

theorem changeCols_phase : ∀ (chs : List (String × ColumnDef × ColumnDef))
    (M : Snapshot) (n : String) (td : TableDef), alookup n M = some td →
    (∀ q ∈ chs, (alookup q.1 td.columns).isSome = true) → (akeys chs).Nodup →
    consistentAll M (chs.map (fun q => Action.changeColumn n q.1 q.2.1 q.2.2)) ∧
    patchAll M (chs.map (fun q => Action.changeColumn n q.1 q.2.1 q.2.2)) =
      asetKey n { td with columns := setKeys (chs.map (fun q => (q.1, q.2.2))) td.columns } M
  | [], M, n, td, hM, _, _ =>
    ⟨trivial, (asetKey_self_of_lookup hM).symm⟩
  | (c, old, nw) :: chs, M, n, td, hM, hpres, hnodup => by
    simp only [akeys, List.map_cons, List.nodup_cons] at hnodup
    have hc : (alookup c td.columns).isSome = true :=
      hpres (c, old, nw) (List.mem_cons_self _ _)
    have hpatch : patch M (Action.changeColumn n c old nw) =
        asetKey n { td with columns := asetKey c nw td.columns } M := by
      show patchTable M n _ = _
      exact patchTable_eq hM _
    have hM₁ : alookup n (asetKey n { td with columns := asetKey c nw td.columns } M) =
        some { td with columns := asetKey c nw td.columns } :=
      alookup_asetKey_self _ (by rw [hM]; rfl)
    have hpres' : ∀ q ∈ chs,
        (alookup q.1 (TableDef.columns { td with columns := asetKey c nw td.columns })).isSome = true := by
      intro q hq
      show (alookup q.1 (asetKey c nw td.columns)).isSome = true
      have hqc : q.1 ≠ c := by
        intro h
        exact hnodup.1 (List.mem_map.mpr ⟨q, hq, h⟩)
      rw [alookup_asetKey_ne hqc]
      exact hpres q (List.mem_cons_of_mem _ hq)
    obtain ⟨ihc, ihp⟩ := changeCols_phase chs _ n _ hM₁ hpres' hnodup.2
    refine ⟨⟨⟨td, hM, hc⟩, ?_⟩, ?_⟩
    · rw [hpatch]
      exact ihc
    · show patchAll (patch M (Action.changeColumn n c old nw)) _ = _
      rw [hpatch, ihp, asetKey_asetKey]
      rfl

theorem addIdx_phase : ∀ (pairs : List (String × IndexDef)) (M : Snapshot)
    (n : String) (td : TableDef), alookup n M = some td →
    (∀ q ∈ pairs, q ∉ td.indexes) → pairs.Nodup →
    consistentAll M (pairs.map (fun q => Action.addIndex n q.1 q.2)) ∧
    patchAll M (pairs.map (fun q => Action.addIndex n q.1 q.2)) =
      asetKey n { td with indexes := td.indexes ++ pairs } M
  | [], M, n, td, hM, _, _ => by
    refine ⟨trivial, ?_⟩
    show M = asetKey n { td with indexes := td.indexes ++ [] } M
    rw [List.append_nil]
    exact (asetKey_self_of_lookup hM).symm
  | q :: pairs, M, n, td, hM, hfresh, hnodup => by
    obtain ⟨hq1, hnodup'⟩ := List.nodup_cons.mp hnodup
    have hq : q ∉ td.indexes := hfresh q (List.mem_cons_self _ _)
    have hpatch : patch M (Action.addIndex n q.1 q.2) =
        asetKey n { td with indexes := td.indexes ++ [q] } M := by
      show patchTable M n _ = _
      exact patchTable_eq hM _
    have hM₁ : alookup n (asetKey n { td with indexes := td.indexes ++ [q] } M) =
        some { td with indexes := td.indexes ++ [q] } :=
      alookup_asetKey_self _ (by rw [hM]; rfl)
    have hfresh' : ∀ r ∈ pairs,
        r ∉ TableDef.indexes { td with indexes := td.indexes ++ [q] } := by
      intro r hr hmem
      rcases List.mem_append.mp hmem with h1 | h1
      · exact hfresh r (List.mem_cons_of_mem _ hr) h1
      · rw [List.mem_singleton] at h1
        subst h1
        exact hq1 hr
    obtain ⟨ihc, ihp⟩ := addIdx_phase pairs _ n _ hM₁ hfresh' hnodup'
    refine ⟨⟨⟨td, hM, hq⟩, ?_⟩, ?_⟩
    · rw [hpatch]
      exact ihc
    · show patchAll (patch M (Action.addIndex n q.1 q.2)) _ = _
      rw [hpatch, ihp, asetKey_asetKey]
      show asetKey n { td with indexes := (td.indexes ++ [q]) ++ pairs } M = _
      rw [List.append_assoc]
      rfl

theorem removeIdx_phase : ∀ (pairs : List (String × IndexDef)) (M : Snapshot)
    (n : String) (td : TableDef), alookup n M = some td →
    (∀ q ∈ pairs, q ∈ td.indexes) → pairs.Nodup → td.indexes.Nodup →
    consistentAll M (pairs.map (fun q => Action.removeIndex n q.1 q.2)) ∧
    patchAll M (pairs.map (fun q => Action.removeIndex n q.1 q.2)) =
      asetKey n { td with indexes := eraseVals pairs td.indexes } M
  | [], M, n, td, hM, _, _, _ =>
    ⟨trivial, (asetKey_self_of_lookup hM).symm⟩
  | q :: pairs, M, n, td, hM, hmem, hnodup, hidx => by
    obtain ⟨hq1, hnodup'⟩ := List.nodup_cons.mp hnodup
    have hq : q ∈ td.indexes := hmem q (List.mem_cons_self _ _)
    have hpatch : patch M (Action.removeIndex n q.1 q.2) =
        asetKey n { td with indexes := verase q td.indexes } M := by
      show patchTable M n _ = _
      exact patchTable_eq hM _
    have hM₁ : alookup n (asetKey n { td with indexes := verase q td.indexes } M) =
        some { td with indexes := verase q td.indexes } :=
      alookup_asetKey_self _ (by rw [hM]; rfl)
    have hmem' : ∀ r ∈ pairs,
        r ∈ TableDef.indexes { td with indexes := verase q td.indexes } := by
      intro r hr
      show r ∈ verase q td.indexes
      rw [mem_verase_of_nodup hidx]
      exact ⟨hmem r (List.mem_cons_of_mem _ hr), fun h => hq1 (h ▸ hr)⟩
    obtain ⟨ihc, ihp⟩ := removeIdx_phase pairs _ n _ hM₁ hmem' hnodup'
      ((verase_sublist q td.indexes).nodup hidx)
    refine ⟨⟨⟨td, hM, hq⟩, ?_⟩, ?_⟩
    · rw [hpatch]
      exact ihc
    · show patchAll (patch M (Action.removeIndex n q.1 q.2)) _ = _
      rw [hpatch, ihp, asetKey_asetKey]
      rfl

theorem addFKs_phase : ∀ (pairs : List (String × ForeignKeyDef)) (M : Snapshot)
    (n : String) (td : TableDef), alookup n M = some td →
    (∀ q ∈ pairs, q ∉ td.foreignKeys) → pairs.Nodup →
    consistentAll M (pairs.map (fun q => Action.addForeignKey n q.1 q.2)) ∧
    patchAll M (pairs.map (fun q => Action.addForeignKey n q.1 q.2)) =
      asetKey n { td with foreignKeys := td.foreignKeys ++ pairs } M
  | [], M, n, td, hM, _, _ => by
    refine ⟨trivial, ?_⟩
    show M = asetKey n { td with foreignKeys := td.foreignKeys ++ [] } M
    rw [List.append_nil]
    exact (asetKey_self_of_lookup hM).symm
  | q :: pairs, M, n, td, hM, hfresh, hnodup => by
    obtain ⟨hq1, hnodup'⟩ := List.nodup_cons.mp hnodup
    have hq : q ∉ td.foreignKeys := hfresh q (List.mem_cons_self _ _)
    have hpatch : patch M (Action.addForeignKey n q.1 q.2) =
        asetKey n { td with foreignKeys := td.foreignKeys ++ [q] } M := by
      show patchTable M n _ = _
      exact patchTable_eq hM _
    have hM₁ : alookup n (asetKey n { td with foreignKeys := td.foreignKeys ++ [q] } M) =
        some { td with foreignKeys := td.foreignKeys ++ [q] } :=
      alookup_asetKey_self _ (by rw [hM]; rfl)
    have hfresh' : ∀ r ∈ pairs,
        r ∉ TableDef.foreignKeys { td with foreignKeys := td.foreignKeys ++ [q] } := by
      intro r hr hmem
      rcases List.mem_append.mp hmem with h1 | h1
      · exact hfresh r (List.mem_cons_of_mem _ hr) h1
      · rw [List.mem_singleton] at h1
        subst h1
        exact hq1 hr
    obtain ⟨ihc, ihp⟩ := addFKs_phase pairs _ n _ hM₁ hfresh' hnodup'
    refine ⟨⟨⟨td, hM, hq⟩, ?_⟩, ?_⟩
    · rw [hpatch]
      exact ihc
    · show patchAll (patch M (Action.addForeignKey n q.1 q.2)) _ = _
      rw [hpatch, ihp, asetKey_asetKey]
      show asetKey n { td with foreignKeys := (td.foreignKeys ++ [q]) ++ pairs } M = _
      rw [List.append_assoc]
      rfl

theorem removeFKs_phase : ∀ (pairs : List (String × ForeignKeyDef)) (M : Snapshot)
    (n : String) (td : TableDef), alookup n M = some td →
    (∀ q ∈ pairs, q ∈ td.foreignKeys) → pairs.Nodup → td.foreignKeys.Nodup →
    consistentAll M (pairs.map (fun q => Action.removeForeignKey n q.1 q.2)) ∧
    patchAll M (pairs.map (fun q => Action.removeForeignKey n q.1 q.2)) =
      asetKey n { td with foreignKeys := eraseVals pairs td.foreignKeys } M
  | [], M, n, td, hM, _, _, _ =>
    ⟨trivial, (asetKey_self_of_lookup hM).symm⟩
  | q :: pairs, M, n, td, hM, hmem, hnodup, hfk => by
    obtain ⟨hq1, hnodup'⟩ := List.nodup_cons.mp hnodup
    have hq : q ∈ td.foreignKeys := hmem q (List.mem_cons_self _ _)
    have hpatch : patch M (Action.removeForeignKey n q.1 q.2) =
        asetKey n { td with foreignKeys := verase q td.foreignKeys } M := by
      show patchTable M n _ = _
      exact patchTable_eq hM _
    have hM₁ : alookup n (asetKey n { td with foreignKeys := verase q td.foreignKeys } M) =
        some { td with foreignKeys := verase q td.foreignKeys } :=
      alookup_asetKey_self _ (by rw [hM]; rfl)
    have hmem' : ∀ r ∈ pairs,
        r ∈ TableDef.foreignKeys { td with foreignKeys := verase q td.foreignKeys } := by
      intro r hr
      show r ∈ verase q td.foreignKeys
      rw [mem_verase_of_nodup hfk]
      exact ⟨hmem r (List.mem_cons_of_mem _ hr), fun h => hq1 (h ▸ hr)⟩
    obtain ⟨ihc, ihp⟩ := removeFKs_phase pairs _ n _ hM₁ hmem' hnodup'
      ((verase_sublist q td.foreignKeys).nodup hfk)
    refine ⟨⟨⟨td, hM, hq⟩, ?_⟩, ?_⟩
    · rw [hpatch]
      exact ihc
    · show patchAll (patch M (Action.removeForeignKey n q.1 q.2)) _ = _
      rw [hpatch, ihp, asetKey_asetKey]
      rfl

/-! ## Change pairs: the changeColumn payloads of the per-table diff -/

/-- The (column, old, new) triples for which the per-table diff emits a
`changeColumn` action. -/
def changePairs (src tgt : TableDef) : List (String × ColumnDef × ColumnDef) :=
  tgt.columns.filterMap (fun c =>
    match alookup c.1 src.columns, alookup c.1 tgt.columns with
    | some oldDef, some newDef =>
      if oldDef = newDef then none else some (c.1, oldDef, newDef)
    | _, _ => none)

theorem colChanges_eq (n : String) (src tgt : TableDef) :
    (tgt.columns.filterMap (fun c =>
      match alookup c.1 src.columns, alookup c.1 tgt.columns with
      | some oldDef, some newDef =>
        if oldDef = newDef then none
        else some (Action.changeColumn n c.1 oldDef newDef)
      | _, _ => none)) =
    (changePairs src tgt).map (fun q => Action.changeColumn n q.1 q.2.1 q.2.2) := by
  rw [changePairs, List.map_filterMap]
  apply List.filterMap_congr
  intro c _
  cases alookup c.1 src.columns <;> cases alookup c.1 tgt.columns <;> simp
  split <;> simp

theorem akeys_filterMap_sublist {α β : Type}
    {f : String × α → Option (String × β)}
    (hf : ∀ p q, f p = some q → q.1 = p.1) :
    ∀ (l : List (String × α)), (akeys (l.filterMap f)).Sublist (akeys l)
  | [] => by simp [akeys]
  | p :: rest => by
    rw [List.filterMap_cons]
    cases hfp : f p with
    | none =>
      exact (akeys_filterMap_sublist hf rest).trans (List.sublist_cons_self _ _)
    | some q =>
      show (q.1 :: akeys (rest.filterMap f)).Sublist (p.1 :: akeys rest)
      rw [hf p q hfp]
      exact (akeys_filterMap_sublist hf rest).cons₂ _

/-- Lookup in a `filterMap` whose output is keyed by the input key and whose
value depends only on the key. -/
theorem alookup_filterMap_keyed {α β : Type}
    {f : String × α → Option (String × β)} {g : String → Option β}
    (hf : ∀ p, ((f p).map Prod.snd = g p.1) ∧ ∀ q, f p = some q → q.1 = p.1) :
    ∀ (l : List (String × α)) (c : String),
      alookup c (l.filterMap f) =
        if (alookup c l).isSome then g c else none
  | [], c => by simp [alookup]
  | p :: rest, c => by
    obtain ⟨k, v⟩ := p
    rw [List.filterMap_cons]
    by_cases hk : k = c
    · subst hk
      rw [show alookup k ((k, v) :: rest) = some v from by rw [alookup, if_pos rfl]]
      cases hfp : f (k, v) with
      | none =>
        have hg : g k = none := by
          have := (hf (k, v)).1
          rw [hfp] at this
          exact this.symm
        rw [alookup_filterMap_keyed hf rest k, hg]
        simp
      | some q =>
        have hq1 : q.1 = k := (hf (k, v)).2 q hfp
        have hg : g k = some q.2 := by
          have := (hf (k, v)).1
          rw [hfp] at this
          exact this.symm
        rw [show alookup k (q :: rest.filterMap f) = some q.2 from by
          rw [alookup, if_pos hq1]]
        simp [hg]
    · rw [show alookup c ((k, v) :: rest) = alookup c rest from by
        rw [alookup, if_neg hk]]
      cases hfp : f (k, v) with
      | none => exact alookup_filterMap_keyed hf rest c
      | some q =>
        have hq1 : q.1 = k := (hf (k, v)).2 q hfp
        rw [show alookup c (q :: rest.filterMap f) = alookup c (rest.filterMap f) from by
          rw [alookup, if_neg (hq1 ▸ hk)]]
        exact alookup_filterMap_keyed hf rest c

/-- Lookup through a key-preserving value map. -/
theorem alookup_map_pair {α β : Type} (g : α → β) :
    ∀ (l : List (String × α)) (c : String),
      alookup c (l.map (fun q => (q.1, g q.2))) = (alookup c l).map g
  | [], _ => rfl
  | (k, v) :: rest, c => by
    rw [List.map_cons]
    show alookup c ((k, g v) :: rest.map (fun q => (q.1, g q.2))) = _
    by_cases hk : k = c
    · rw [alookup, if_pos hk, alookup, if_pos hk]
      rfl
    · rw [alookup, if_neg hk, alookup, if_neg hk]
      exact alookup_map_pair g rest c

/-- The lookup characterization of `changePairs`. -/
theorem alookup_changePairs (src tgt : TableDef) (c : String) :
    alookup c (changePairs src tgt) =
      if (alookup c tgt.columns).isSome then
        (match alookup c src.columns, alookup c tgt.columns with
          | some o, some nw => if o = nw then none else some (o, nw)
          | _, _ => none)
      else none := by
  have hf : ∀ p : String × ColumnDef,
      (((match alookup p.1 src.columns, alookup p.1 tgt.columns with
        | some oldDef, some newDef =>
          if oldDef = newDef then none else some (p.1, oldDef, newDef)
        | _, _ => none) : Option (String × ColumnDef × ColumnDef)).map Prod.snd =
        (match alookup p.1 src.columns, alookup p.1 tgt.columns with
          | some o, some nw => if o = nw then none else some (o, nw)
          | _, _ => none)) ∧
      ∀ q, (match alookup p.1 src.columns, alookup p.1 tgt.columns with
        | some oldDef, some newDef =>
          if oldDef = newDef then none else some (p.1, oldDef, newDef)
        | _, _ => none) = some q → q.1 = p.1 := by
    intro p
    constructor
    · cases hs : alookup p.1 src.columns with
      | none => cases ht : alookup p.1 tgt.columns <;> rfl
      | some o =>
        cases ht : alookup p.1 tgt.columns with
        | none => rfl
        | some nw => by_cases ho : o = nw <;> simp [ho]
    · intro q
      cases hs : alookup p.1 src.columns with
      | none => cases ht : alookup p.1 tgt.columns <;> intro hq <;> cases hq
      | some o =>
        cases ht : alookup p.1 tgt.columns with
        | none => intro hq; cases hq
        | some nw =>
          by_cases ho : o = nw
          · simp [ho]
          · intro hq
            simp [ho] at hq
            rw [← hq]
  exact @alookup_filterMap_keyed ColumnDef (ColumnDef × ColumnDef)
    (fun p => match alookup p.1 src.columns, alookup p.1 tgt.columns with
      | some oldDef, some newDef =>
        if oldDef = newDef then none else some (p.1, oldDef, newDef)
      | _, _ => none)
    (fun k => match alookup k src.columns, alookup k tgt.columns with
      | some o, some nw => if o = nw then none else some (o, nw)
      | _, _ => none)
    hf tgt.columns c

/-- The final index collection of a patched common table has exactly the
target's members. -/
theorem setDiff_final_mem_idx {src tgt : List (String × IndexDef)}
    (hsrc : src.Nodup) (htgt : tgt.Nodup) (p : String × IndexDef) :
    p ∈ eraseVals (src.filter (fun i => i ∉ tgt))
      (src ++ tgt.filter (fun i => i ∉ src)) ↔ p ∈ tgt := by
  have hnodup : (src ++ tgt.filter (fun i => i ∉ src)).Nodup := by
    refine List.Nodup.append hsrc ((List.filter_sublist _).nodup htgt) ?_
    intro a ha hb
    have := List.of_mem_filter hb
    simp at this
    exact this ha
  rw [mem_eraseVals _ _ hnodup]
  simp only [List.mem_append, List.mem_filter, decide_not, Bool.not_eq_eq_eq_not,
    Bool.not_true, decide_eq_false_iff_not, decide_eq_true_eq]
  by_cases hs : p ∈ src <;> by_cases ht : p ∈ tgt <;> simp [hs, ht]

/-- The final foreign-key collection of a patched common table has exactly
the target's members. -/
theorem setDiff_final_mem_fk {src tgt : List (String × ForeignKeyDef)}
    (hsrc : src.Nodup) (htgt : tgt.Nodup) (p : String × ForeignKeyDef) :
    p ∈ eraseVals (src.filter (fun i => i ∉ tgt))
      (src ++ tgt.filter (fun i => i ∉ src)) ↔ p ∈ tgt := by
  have hnodup : (src ++ tgt.filter (fun i => i ∉ src)).Nodup := by
    refine List.Nodup.append hsrc ((List.filter_sublist _).nodup htgt) ?_
    intro a ha hb
    have := List.of_mem_filter hb
    simp at this
    exact this ha
  rw [mem_eraseVals _ _ hnodup]
  simp only [List.mem_append, List.mem_filter, decide_not, Bool.not_eq_eq_eq_not,
    Bool.not_true, decide_eq_false_iff_not, decide_eq_true_eq]
  by_cases hs : p ∈ src <;> by_cases ht : p ∈ tgt <;> simp [hs, ht]


/-! ## The per-table diff groups and the final common-table shape -/

/-- Column additions of the per-table diff. -/
def colAddPairs (src tgt : TableDef) : List (String × ColumnDef) :=
  tgt.columns.filter (fun c => (alookup c.1 src.columns).isNone)

/-- Column removals of the per-table diff. -/
def colRemovePairs (src tgt : TableDef) : List (String × ColumnDef) :=
  src.columns.filter (fun c => (alookup c.1 tgt.columns).isNone)

/-- Index additions of the per-table diff. -/
def idxAddPairs (src tgt : TableDef) : List (String × IndexDef) :=
  tgt.indexes.filter (fun i => i ∉ src.indexes)

/-- Index removals of the per-table diff. -/
def idxRemovePairs (src tgt : TableDef) : List (String × IndexDef) :=
  src.indexes.filter (fun i => i ∉ tgt.indexes)

/-- Foreign-key additions of the per-table diff. -/
def fkAddPairs (src tgt : TableDef) : List (String × ForeignKeyDef) :=
  tgt.foreignKeys.filter (fun i => i ∉ src.foreignKeys)

/-- Foreign-key removals of the per-table diff. -/
def fkRemovePairs (src tgt : TableDef) : List (String × ForeignKeyDef) :=
  src.foreignKeys.filter (fun i => i ∉ tgt.foreignKeys)

theorem tableDiff_eq (n : String) (src tgt : TableDef) :
    tableDiff n src tgt =
      (colAddPairs src tgt).map (fun q => Action.addColumn n q.1 q.2) ++
      (colRemovePairs src tgt).map (fun q => Action.removeColumn n q.1 q.2) ++
      (changePairs src tgt).map (fun q => Action.changeColumn n q.1 q.2.1 q.2.2) ++
      (idxAddPairs src tgt).map (fun q => Action.addIndex n q.1 q.2) ++
      (idxRemovePairs src tgt).map (fun q => Action.removeIndex n q.1 q.2) ++
      (fkAddPairs src tgt).map (fun q => Action.addForeignKey n q.1 q.2) ++
      (fkRemovePairs src tgt).map (fun q => Action.removeForeignKey n q.1 q.2) := by
  unfold tableDiff colAddPairs colRemovePairs idxAddPairs idxRemovePairs
    fkAddPairs fkRemovePairs
  rw [colChanges_eq]

theorem changePairs_keys {src tgt : TableDef} {ch : String × ColumnDef × ColumnDef}
    (h : ch ∈ changePairs src tgt) :
    alookup ch.1 src.columns = some ch.2.1 ∧
    alookup ch.1 tgt.columns = some ch.2.2 := by
  obtain ⟨a, _, hfa⟩ := List.mem_filterMap.mp h
  cases hs : alookup a.1 src.columns with
  | none =>
    rw [hs] at hfa
    cases ht : alookup a.1 tgt.columns <;> rw [ht] at hfa <;> cases hfa
  | some o =>
    cases ht : alookup a.1 tgt.columns with
    | none =>
      rw [hs, ht] at hfa
      cases hfa
    | some nw =>
      rw [hs, ht] at hfa
      by_cases ho : o = nw
      · simp [ho] at hfa
      · simp [ho] at hfa
        subst hfa
        exact ⟨hs, ht⟩

theorem akeys_changePairs_sublist (src tgt : TableDef) :
    (akeys (changePairs src tgt)).Sublist (akeys tgt.columns) := by
  apply akeys_filterMap_sublist
  intro p q hq
  cases hs : alookup p.1 src.columns with
  | none =>
    rw [hs] at hq
    cases ht : alookup p.1 tgt.columns <;> rw [ht] at hq <;> cases hq
  | some o =>
    cases ht : alookup p.1 tgt.columns with
    | none =>
      rw [hs, ht] at hq
      cases hq
    | some nw =>
      rw [hs, ht] at hq
      by_cases ho : o = nw
      · simp [ho] at hq
      · simp [ho] at hq
        subst hq
        rfl

theorem akeys_map_snd (l : List (String × ColumnDef × ColumnDef)) :
    akeys (l.map (fun q => (q.1, q.2.2))) = akeys l := by
  induction l with
  | nil => rfl
  | cons q rest ih =>
    show q.1 :: akeys (rest.map (fun r => (r.1, r.2.2))) = q.1 :: akeys rest
    rw [ih]

theorem alookup_map_snd (l : List (String × ColumnDef × ColumnDef)) (c : String) :
    alookup c (l.map (fun q => (q.1, q.2.2))) =
      (alookup c l).map (fun pr => pr.2) :=
  alookup_map_pair (fun pr : ColumnDef × ColumnDef => pr.2) l c

theorem base_nodup {src tgt : TableDef} (hsrc : (akeys src.columns).Nodup)
    (htgt : (akeys tgt.columns).Nodup) :
    (akeys (src.columns ++ colAddPairs src tgt)).Nodup := by
  rw [akeys_append]
  refine List.Nodup.append hsrc ((akeys_filter_sublist _ _).nodup htgt) ?_
  intro a ha hb
  obtain ⟨p, hp, hpa⟩ := List.mem_map.mp hb
  have hfil := List.of_mem_filter hp
  rw [hpa] at hfil
  rw [Option.isNone_iff_eq_none, alookup_eq_none_iff] at hfil
  exact hfil ha

theorem not_mem_akeys_colRemovePairs {src tgt : TableDef} {c : String}
    (h : (alookup c tgt.columns).isSome = true) :
    c ∉ akeys (colRemovePairs src tgt) := by
  intro hmem
  obtain ⟨p, hp, hpc⟩ := List.mem_map.mp hmem
  have hfil := List.of_mem_filter hp
  rw [hpc, Option.isNone_iff_eq_none] at hfil
  rw [hfil] at h
  cases h

theorem mem_akeys_colRemovePairs {src tgt : TableDef} {c : String} {o : ColumnDef}
    (hsrc : (akeys src.columns).Nodup)
    (hs : alookup c src.columns = some o) (ht : alookup c tgt.columns = none) :
    c ∈ akeys (colRemovePairs src tgt) := by
  refine List.mem_map.mpr ⟨(c, o), ?_, rfl⟩
  refine List.mem_filter.mpr ⟨mem_of_alookup_eq_some hs, ?_⟩
  show (alookup c tgt.columns).isNone = true
  rw [ht]
  rfl

/-- The final lookup of every column of a patched common table agrees with
the target. -/
theorem cols_final_lookup (src tgt : TableDef) (hsrc : src.WF) (htgt : tgt.WF)
    (c : String) :
    alookup c (setKeys ((changePairs src tgt).map (fun q => (q.1, q.2.2)))
      (eraseKeys (akeys (colRemovePairs src tgt))
        (src.columns ++ colAddPairs src tgt))) = alookup c tgt.columns := by
  have hbase := @base_nodup src tgt hsrc.1 htgt.1
  have hnodupNews : (akeys ((changePairs src tgt).map (fun q => (q.1, q.2.2)))).Nodup := by
    rw [akeys_map_snd]
    exact (akeys_changePairs_sublist src tgt).nodup htgt.1
  have hpres : ∀ q ∈ (changePairs src tgt).map (fun q => (q.1, q.2.2)),
      (alookup q.1 (eraseKeys (akeys (colRemovePairs src tgt))
        (src.columns ++ colAddPairs src tgt))).isSome = true := by
    intro q hq
    obtain ⟨ch, hch, hchq⟩ := List.mem_map.mp hq
    obtain ⟨hchs, hcht⟩ := changePairs_keys hch
    rw [← hchq]
    show (alookup ch.1 _).isSome = true
    rw [alookup_eraseKeys _ _ hbase]
    rw [if_neg (not_mem_akeys_colRemovePairs (by rw [hcht]; rfl))]
    rw [alookup_append_left _ hchs]
    rfl
  rw [alookup_setKeys _ _ hnodupNews hpres c, alookup_map_snd, alookup_changePairs,
    alookup_eraseKeys _ _ hbase]
  cases hs : alookup c src.columns with
  | none =>
    cases ht : alookup c tgt.columns with
    | none =>
      have hrem : c ∉ akeys (colRemovePairs src tgt) := by
        intro hmem
        obtain ⟨p, hp, hpc⟩ := List.mem_map.mp hmem
        have hmem2 : p ∈ src.columns := List.mem_of_mem_filter hp
        have hps := alookup_isSome_of_mem hmem2
        rw [hpc, hs] at hps
        cases hps
      have hb : alookup c (src.columns ++ colAddPairs src tgt) = none := by
        rw [alookup_append_right _ hs]
        exact alookup_filter_isNone ht
      simp [hrem, hb]
    | some nw =>
      have hrem : c ∉ akeys (colRemovePairs src tgt) :=
        not_mem_akeys_colRemovePairs (by rw [ht]; rfl)
      have hb : alookup c (src.columns ++ colAddPairs src tgt) = some nw := by
        rw [alookup_append_right _ hs]
        exact alookup_filter_of_passes htgt.1 ht (by
          show (alookup c src.columns).isNone = true
          rw [hs]
          rfl)
      simp [hrem, hb]
  | some o =>
    cases ht : alookup c tgt.columns with
    | none =>
      have hrem : c ∈ akeys (colRemovePairs src tgt) :=
        mem_akeys_colRemovePairs hsrc.1 hs ht
      simp [hrem]
    | some nw =>
      have hrem : c ∉ akeys (colRemovePairs src tgt) :=
        not_mem_akeys_colRemovePairs (by rw [ht]; rfl)
      have hb : alookup c (src.columns ++ colAddPairs src tgt) = some o :=
        alookup_append_left _ hs
      by_cases ho : o = nw
      · simp [hrem, hb, ho]
      · simp [hrem, hb, ho]


theorem changePairs_present_after (src tgt : TableDef) (hsrc : src.WF)
    (htgt : tgt.WF) :
    ∀ q ∈ changePairs src tgt,
      (alookup q.1 (eraseKeys (akeys (colRemovePairs src tgt))
        (src.columns ++ colAddPairs src tgt))).isSome = true := by
  intro q hq
  obtain ⟨hqs, hqt⟩ := changePairs_keys hq
  rw [alookup_eraseKeys _ _ (base_nodup hsrc.1 htgt.1),
    if_neg (not_mem_akeys_colRemovePairs (by rw [hqt]; rfl)),
    alookup_append_left _ hqs]
  rfl

/-- Intermediate table shapes of the per-table patch. -/
def ctd1 (src tgt : TableDef) : TableDef :=
  { src with columns := src.columns ++ colAddPairs src tgt }

/-- After column removals. -/
def ctd2 (src tgt : TableDef) : TableDef :=
  { ctd1 src tgt with
    columns := eraseKeys (akeys (colRemovePairs src tgt)) (ctd1 src tgt).columns }

/-- After column changes. -/
def ctd3 (src tgt : TableDef) : TableDef :=
  { ctd2 src tgt with
    columns := setKeys ((changePairs src tgt).map (fun q => (q.1, q.2.2)))
      (ctd2 src tgt).columns }

/-- After index additions. -/
def ctd4 (src tgt : TableDef) : TableDef :=
  { ctd3 src tgt with indexes := (ctd3 src tgt).indexes ++ idxAddPairs src tgt }

/-- After index removals. -/
def ctd5 (src tgt : TableDef) : TableDef :=
  { ctd4 src tgt with
    indexes := eraseVals (idxRemovePairs src tgt) (ctd4 src tgt).indexes }

/-- After foreign-key additions. -/
def ctd6 (src tgt : TableDef) : TableDef :=
  { ctd5 src tgt with
    foreignKeys := (ctd5 src tgt).foreignKeys ++ fkAddPairs src tgt }

/-- After foreign-key removals: the final patched common table. -/
def ctd7 (src tgt : TableDef) : TableDef :=
  { ctd6 src tgt with
    foreignKeys := eraseVals (fkRemovePairs src tgt) (ctd6 src tgt).foreignKeys }

/-- The whole per-table diff is consistent at any state carrying the source
table, and patches it to a table equivalent to the target. -/
theorem tableDiff_phase (n : String) (src tgt : TableDef) (hsrc : src.WF)
    (htgt : tgt.WF) (M : Snapshot) (hM : alookup n M = some src) :
    consistentAll M (tableDiff n src tgt) ∧
      patchAll M (tableDiff n src tgt) = asetKey n (ctd7 src tgt) M ∧
      TableEquivU (ctd7 src tgt) tgt := by
  have hfresh1 : ∀ q ∈ colAddPairs src tgt, alookup q.1 src.columns = none := by
    intro q hq
    have := List.of_mem_filter hq
    rwa [Option.isNone_iff_eq_none] at this
  have hnodup1 : (akeys (colAddPairs src tgt)).Nodup :=
    (akeys_filter_sublist _ _).nodup htgt.1
  obtain ⟨c1, p1⟩ := addCols_phase (colAddPairs src tgt) M n src hM hfresh1 hnodup1
  rw [show { src with columns := src.columns ++ colAddPairs src tgt } = ctd1 src tgt
    from rfl] at p1
  have hM1 : alookup n (asetKey n (ctd1 src tgt) M) = some (ctd1 src tgt) :=
    alookup_asetKey_self _ (by rw [hM]; rfl)
  have hpres2 : ∀ q ∈ colRemovePairs src tgt,
      (alookup q.1 (ctd1 src tgt).columns).isSome = true := by
    intro q hq
    show (alookup q.1 (src.columns ++ colAddPairs src tgt)).isSome = true
    obtain ⟨v, hv⟩ := Option.isSome_iff_exists.mp
      (alookup_isSome_of_mem (List.mem_of_mem_filter hq))
    rw [alookup_append_left _ hv]
    rfl
  have hnodup2 : (akeys (colRemovePairs src tgt)).Nodup :=
    (akeys_filter_sublist _ _).nodup hsrc.1
  obtain ⟨c2, p2⟩ :=
    removeCols_phase (colRemovePairs src tgt) _ n (ctd1 src tgt) hM1 hpres2 hnodup2
  rw [show { ctd1 src tgt with
      columns := eraseKeys (akeys (colRemovePairs src tgt)) (ctd1 src tgt).columns } =
    ctd2 src tgt from rfl] at p2
  have hM2 : alookup n (asetKey n (ctd2 src tgt) (asetKey n (ctd1 src tgt) M)) =
      some (ctd2 src tgt) :=
    alookup_asetKey_self _ (by rw [hM1]; rfl)
  have hpres3 : ∀ q ∈ changePairs src tgt,
      (alookup q.1 (ctd2 src tgt).columns).isSome = true := by
    intro q hq
    show (alookup q.1 (eraseKeys (akeys (colRemovePairs src tgt))
      (src.columns ++ colAddPairs src tgt))).isSome = true
    exact changePairs_present_after src tgt hsrc htgt q hq
  have hnodup3 : (akeys (changePairs src tgt)).Nodup :=
    (akeys_changePairs_sublist src tgt).nodup htgt.1
  obtain ⟨c3, p3⟩ :=
    changeCols_phase (changePairs src tgt) _ n (ctd2 src tgt) hM2 hpres3 hnodup3
  rw [show { ctd2 src tgt with
      columns := setKeys ((changePairs src tgt).map (fun q => (q.1, q.2.2)))
        (ctd2 src tgt).columns } = ctd3 src tgt from rfl] at p3
  have hM3 : alookup n (asetKey n (ctd3 src tgt)
      (asetKey n (ctd2 src tgt) (asetKey n (ctd1 src tgt) M))) =
      some (ctd3 src tgt) :=
    alookup_asetKey_self _ (by rw [hM2]; rfl)
  have hfresh4 : ∀ q ∈ idxAddPairs src tgt, q ∉ (ctd3 src tgt).indexes := by
    intro q hq
    show q ∉ src.indexes
    have := List.of_mem_filter hq
    simpa using this
  have hnodup4 : (idxAddPairs src tgt).Nodup :=
    (List.filter_sublist _).nodup htgt.2.1
  obtain ⟨c4, p4⟩ :=
    addIdx_phase (idxAddPairs src tgt) _ n (ctd3 src tgt) hM3 hfresh4 hnodup4
  rw [show { ctd3 src tgt with
      indexes := (ctd3 src tgt).indexes ++ idxAddPairs src tgt } = ctd4 src tgt
    from rfl] at p4
  have hM4 : alookup n (asetKey n (ctd4 src tgt) (asetKey n (ctd3 src tgt)
      (asetKey n (ctd2 src tgt) (asetKey n (ctd1 src tgt) M)))) =
      some (ctd4 src tgt) :=
    alookup_asetKey_self _ (by rw [hM3]; rfl)
  have hidx_nodup : (ctd4 src tgt).indexes.Nodup := by
    show (src.indexes ++ idxAddPairs src tgt).Nodup
    refine List.Nodup.append hsrc.2.1 hnodup4 ?_
    intro a ha hb
    have := List.of_mem_filter hb
    simp at this
    exact this ha
  have hmem5 : ∀ q ∈ idxRemovePairs src tgt, q ∈ (ctd4 src tgt).indexes := by
    intro q hq
    show q ∈ src.indexes ++ idxAddPairs src tgt
    exact List.mem_append_left _ (List.mem_of_mem_filter hq)
  have hnodup5 : (idxRemovePairs src tgt).Nodup :=
    (List.filter_sublist _).nodup hsrc.2.1
  obtain ⟨c5, p5⟩ :=
    removeIdx_phase (idxRemovePairs src tgt) _ n (ctd4 src tgt) hM4 hmem5 hnodup5
      hidx_nodup
  rw [show { ctd4 src tgt with
      indexes := eraseVals (idxRemovePairs src tgt) (ctd4 src tgt).indexes } =
    ctd5 src tgt from rfl] at p5
  have hM5 : alookup n (asetKey n (ctd5 src tgt) (asetKey n (ctd4 src tgt)
      (asetKey n (ctd3 src tgt) (asetKey n (ctd2 src tgt)
        (asetKey n (ctd1 src tgt) M))))) = some (ctd5 src tgt) :=
    alookup_asetKey_self _ (by rw [hM4]; rfl)
  have hfresh6 : ∀ q ∈ fkAddPairs src tgt, q ∉ (ctd5 src tgt).foreignKeys := by
    intro q hq
    show q ∉ src.foreignKeys
    have := List.of_mem_filter hq
    simpa using this
  have hnodup6 : (fkAddPairs src tgt).Nodup :=
    (List.filter_sublist _).nodup htgt.2.2
  obtain ⟨c6, p6⟩ :=
    addFKs_phase (fkAddPairs src tgt) _ n (ctd5 src tgt) hM5 hfresh6 hnodup6
  rw [show { ctd5 src tgt with
      foreignKeys := (ctd5 src tgt).foreignKeys ++ fkAddPairs src tgt } =
    ctd6 src tgt from rfl] at p6
  have hM6 : alookup n (asetKey n (ctd6 src tgt) (asetKey n (ctd5 src tgt)
      (asetKey n (ctd4 src tgt) (asetKey n (ctd3 src tgt)
        (asetKey n (ctd2 src tgt) (asetKey n (ctd1 src tgt) M)))))) =
      some (ctd6 src tgt) :=
    alookup_asetKey_self _ (by rw [hM5]; rfl)
  have hfk_nodup : (ctd6 src tgt).foreignKeys.Nodup := by
    show (src.foreignKeys ++ fkAddPairs src tgt).Nodup
    refine List.Nodup.append hsrc.2.2 hnodup6 ?_
    intro a ha hb
    have := List.of_mem_filter hb
    simp at this
    exact this ha
  have hmem7 : ∀ q ∈ fkRemovePairs src tgt, q ∈ (ctd6 src tgt).foreignKeys := by
    intro q hq
    show q ∈ src.foreignKeys ++ fkAddPairs src tgt
    exact List.mem_append_left _ (List.mem_of_mem_filter hq)
  have hnodup7 : (fkRemovePairs src tgt).Nodup :=
    (List.filter_sublist _).nodup hsrc.2.2
  obtain ⟨c7, p7⟩ :=
    removeFKs_phase (fkRemovePairs src tgt) _ n (ctd6 src tgt) hM6 hmem7 hnodup7
      hfk_nodup
  rw [show { ctd6 src tgt with
      foreignKeys := eraseVals (fkRemovePairs src tgt) (ctd6 src tgt).foreignKeys } =
    ctd7 src tgt from rfl] at p7
  rw [tableDiff_eq]
  simp only [List.append_assoc]
  refine ⟨?_, ?_, ?_⟩
  · refine consistentAll_append.mpr ⟨c1, ?_⟩
    rw [p1]
    refine consistentAll_append.mpr ⟨c2, ?_⟩
    rw [p2]
    refine consistentAll_append.mpr ⟨c3, ?_⟩
    rw [p3]
    refine consistentAll_append.mpr ⟨c4, ?_⟩
    rw [p4]
    refine consistentAll_append.mpr ⟨c5, ?_⟩
    rw [p5]
    refine consistentAll_append.mpr ⟨c6, ?_⟩
    rw [p6]
    exact c7
  · rw [patchAll_append, p1, patchAll_append, p2, patchAll_append, p3,
      patchAll_append, p4, patchAll_append, p5, patchAll_append, p6, p7,
      asetKey_asetKey, asetKey_asetKey, asetKey_asetKey, asetKey_asetKey,
      asetKey_asetKey, asetKey_asetKey]
  · refine ⟨?_, ?_, ?_⟩
    · intro c
      show alookup c (setKeys ((changePairs src tgt).map (fun q => (q.1, q.2.2)))
        (eraseKeys (akeys (colRemovePairs src tgt))
          (src.columns ++ colAddPairs src tgt))) = alookup c tgt.columns
      exact cols_final_lookup src tgt hsrc htgt c
    · intro p
      show p ∈ eraseVals (src.indexes.filter (fun i => i ∉ tgt.indexes))
        (src.indexes ++ tgt.indexes.filter (fun i => i ∉ src.indexes)) ↔
        p ∈ tgt.indexes
      exact setDiff_final_mem_idx hsrc.2.1 htgt.2.1 p
    · intro p
      show p ∈ eraseVals (src.foreignKeys.filter (fun i => i ∉ tgt.foreignKeys))
        (src.foreignKeys ++ tgt.foreignKeys.filter (fun i => i ∉ src.foreignKeys)) ↔
        p ∈ tgt.foreignKeys
      exact setDiff_final_mem_fk hsrc.2.2 htgt.2.2 p


/-! ## The four groups of the diff and the snapshot-level phases -/

/-- The new tables of the batch (present in target, absent from source). -/
def diffNews (source target : Snapshot) : List (String × TableDef) :=
  target.filter (fun p => (alookup p.1 source).isNone)

/-- The new tables with their deferred foreign keys stripped. -/
def strippedNews (source target : Snapshot) : List (String × TableDef) :=
  (diffNews source target).map
    (fun p => (p.1, keptForeignKeys (newTableNames source target) p.2))

/-- The createTable actions of the diff. -/
def diffCreates (source target : Snapshot) : List Action :=
  (diffNews source target).map
    (fun p => Action.createTable p.1 (keptForeignKeys (newTableNames source target) p.2))

/-- The deferred addForeignKey actions of the diff. -/
def diffDeferred (source target : Snapshot) : List Action :=
  (diffNews source target).flatMap
    (fun p => deferredFKActions (newTableNames source target) p.1 p.2)

/-- The per-table actions of the diff for tables present in both snapshots. -/
def diffCommonActs (source target : Snapshot) : List Action :=
  (target.filter (fun p => (alookup p.1 source).isSome)).flatMap
    (fun p =>
      match alookup p.1 source, alookup p.1 target with
      | some src, some tgt => tableDiff p.1 src tgt
      | _, _ => [])

/-- The dropTable actions of the diff. -/
def diffDrops (source target : Snapshot) : List Action :=
  (source.filter (fun p => (alookup p.1 target).isNone)).map
    (fun p => Action.dropTable p.1 p.2)

theorem parseDifference_eq (source target : Snapshot) :
    parseDifference source target =
      diffCreates source target ++ diffDeferred source target ++
        diffCommonActs source target ++ diffDrops source target := rfl

/-- The foreign keys of a new table deferred to separate actions. -/
def deferredFKPairs (newNames : List String) (td : TableDef) :
    List (String × ForeignKeyDef) :=
  td.foreignKeys.filter (fun fk => fk.2.refTable ∈ newNames)

/-- A new table after its deferred foreign keys are re-added. -/
def mixFKs (newNames : List String) (td : TableDef) : TableDef :=
  { keptForeignKeys newNames td with
    foreignKeys := (keptForeignKeys newNames td).foreignKeys ++
      deferredFKPairs newNames td }

theorem akeys_map_keyed {α β : Type} (g : α → β) (l : List (String × α)) :
    akeys (l.map (fun p => (p.1, g p.2))) = akeys l := by
  induction l with
  | nil => rfl
  | cons q rest ih =>
    show q.1 :: akeys (rest.map (fun p => (p.1, g p.2))) = q.1 :: akeys rest
    rw [ih]

/-- A new table, after stripping, is visible in `mixFKs` form equivalent to
its original definition. -/
theorem mixFKs_equiv (newNames : List String) (td : TableDef) :
    TableEquivU (mixFKs newNames td) td := by
  refine ⟨fun c => rfl, fun p => Iff.rfl, ?_⟩
  intro p
  show p ∈ td.foreignKeys.filter (fun fk => fk.2.refTable ∉ newNames) ++
    td.foreignKeys.filter (fun fk => fk.2.refTable ∈ newNames) ↔ p ∈ td.foreignKeys
  exact mem_kept_or_deferred

/-- The equivalence part of the per-table patch, standalone. -/
theorem ctd7_equiv {src tgt : TableDef} (hsrc : src.WF) (htgt : tgt.WF) :
    TableEquivU (ctd7 src tgt) tgt := by
  refine ⟨?_, ?_, ?_⟩
  · intro c
    show alookup c (setKeys ((changePairs src tgt).map (fun q => (q.1, q.2.2)))
      (eraseKeys (akeys (colRemovePairs src tgt))
        (src.columns ++ colAddPairs src tgt))) = alookup c tgt.columns
    exact cols_final_lookup src tgt hsrc htgt c
  · intro p
    show p ∈ eraseVals (src.indexes.filter (fun i => i ∉ tgt.indexes))
      (src.indexes ++ tgt.indexes.filter (fun i => i ∉ src.indexes)) ↔
      p ∈ tgt.indexes
    exact setDiff_final_mem_idx hsrc.2.1 htgt.2.1 p
  · intro p
    show p ∈ eraseVals (src.foreignKeys.filter (fun i => i ∉ tgt.foreignKeys))
      (src.foreignKeys ++ tgt.foreignKeys.filter (fun i => i ∉ src.foreignKeys)) ↔
      p ∈ tgt.foreignKeys
    exact setDiff_final_mem_fk hsrc.2.2 htgt.2.2 p

theorem creates_phase : ∀ (pairs : List (String × TableDef)) (M : Snapshot),
    (∀ p ∈ pairs, alookup p.1 M = none) → (akeys pairs).Nodup →
    (∀ p ∈ pairs, TableDef.WF p.2) →
    consistentAll M (pairs.map (fun p => Action.createTable p.1 p.2)) ∧
    patchAll M (pairs.map (fun p => Action.createTable p.1 p.2)) = M ++ pairs
  | [], M, _, _, _ => ⟨trivial, (List.append_nil M).symm⟩
  | (n, td) :: pairs, M, hfresh, hnodup, hwf => by
    simp only [akeys, List.map_cons, List.nodup_cons] at hnodup
    have hn : alookup n M = none := hfresh (n, td) (List.mem_cons_self _ _)
    have hfresh2 : ∀ p ∈ pairs, alookup p.1 (M ++ [(n, td)]) = none := by
      intro p hp
      rw [alookup_append, hfresh p (List.mem_cons_of_mem _ hp)]
      have hpn : n ≠ p.1 := fun h => hnodup.1 (List.mem_map.mpr ⟨p, hp, h.symm⟩)
      simp [alookup, hpn]
    obtain ⟨ihc, ihp⟩ := creates_phase pairs (M ++ [(n, td)]) hfresh2 hnodup.2
      (fun p hp => hwf p (List.mem_cons_of_mem _ hp))
    refine ⟨⟨⟨hn, hwf (n, td) (List.mem_cons_self _ _)⟩, ?_⟩, ?_⟩
    · exact ihc
    · show patchAll (patch M (Action.createTable n td)) _ = M ++ (n, td) :: pairs
      rw [show patch M (Action.createTable n td) = M ++ [(n, td)] from rfl, ihp,
        List.append_assoc]
      rfl

theorem creates_eq (S T : Snapshot) :
    diffCreates S T =
      (strippedNews S T).map (fun p => Action.createTable p.1 p.2) := by
  unfold diffCreates strippedNews
  rw [List.map_map]
  rfl


theorem deferred_phase : ∀ (news : List (String × TableDef)) (M : Snapshot)
    (newNames : List String),
    (akeys news).Nodup →
    (∀ p ∈ news, TableDef.WF p.2) →
    (∀ p ∈ news, alookup p.1 M = some (keptForeignKeys newNames p.2)) →
    consistentAll M (news.flatMap (fun p => deferredFKActions newNames p.1 p.2)) ∧
    akeys (patchAll M
      (news.flatMap (fun p => deferredFKActions newNames p.1 p.2))) = akeys M ∧
    ∀ k, alookup k (patchAll M
        (news.flatMap (fun p => deferredFKActions newNames p.1 p.2))) =
      match alookup k news with
      | some td => some (mixFKs newNames td)
      | none => alookup k M
  | [], M, newNames, _, _, _ => ⟨trivial, rfl, fun k => rfl⟩
  | (n, td) :: news, M, newNames, hnodup, hwf, hlook => by
    simp only [akeys, List.map_cons, List.nodup_cons] at hnodup
    have hn : alookup n M = some (keptForeignKeys newNames td) :=
      hlook (n, td) (List.mem_cons_self _ _)
    have hfresh : ∀ q ∈ deferredFKPairs newNames td,
        q ∉ (keptForeignKeys newNames td).foreignKeys := by
      intro q hq hmem
      have h1 := List.of_mem_filter hq
      have h2 := List.of_mem_filter hmem
      simp at h1 h2
      exact h2 h1
    have hnodupd : (deferredFKPairs newNames td).Nodup :=
      (List.filter_sublist _).nodup (hwf (n, td) (List.mem_cons_self _ _)).2.2
    obtain ⟨c0, p0⟩ := addFKs_phase (deferredFKPairs newNames td) M n
      (keptForeignKeys newNames td) hn hfresh hnodupd
    have c0d : consistentAll M (deferredFKActions newNames n td) := c0
    have p0d : patchAll M (deferredFKActions newNames n td) =
        asetKey n (mixFKs newNames td) M := p0
    have hlook2 : ∀ p ∈ news, alookup p.1 (asetKey n (mixFKs newNames td) M) =
        some (keptForeignKeys newNames p.2) := by
      intro p hp
      have hpn : p.1 ≠ n := fun h => hnodup.1 (List.mem_map.mpr ⟨p, hp, h⟩)
      rw [alookup_asetKey_ne hpn]
      exact hlook p (List.mem_cons_of_mem _ hp)
    obtain ⟨ihc, ihk, ihl⟩ := deferred_phase news (asetKey n (mixFKs newNames td) M)
      newNames hnodup.2 (fun p hp => hwf p (List.mem_cons_of_mem _ hp)) hlook2
    have hsplit : ((n, td) :: news).flatMap
        (fun p => deferredFKActions newNames p.1 p.2) =
        deferredFKActions newNames n td ++
          news.flatMap (fun p => deferredFKActions newNames p.1 p.2) := rfl
    refine ⟨?_, ?_, ?_⟩
    · rw [hsplit]
      refine consistentAll_append.mpr ⟨c0d, ?_⟩
      rw [p0d]
      exact ihc
    · rw [hsplit, patchAll_append, p0d, ihk, akeys_asetKey]
    · intro k
      rw [hsplit, patchAll_append, p0d, ihl k]
      by_cases hk : n = k
      · subst hk
        have hnone : alookup n news = none := by
          rw [alookup_eq_none_iff]
          exact hnodup.1
        rw [hnone,
          show alookup n ((n, td) :: news) = some td from by rw [alookup, if_pos rfl]]
        show alookup n (asetKey n (mixFKs newNames td) M) = some (mixFKs newNames td)
        exact alookup_asetKey_self _ (by rw [hn]; rfl)
      · rw [show alookup k ((n, td) :: news) = alookup k news from by
          rw [alookup, if_neg hk]]
        cases hnews : alookup k news with
        | some td2 => rfl
        | none =>
          show alookup k (asetKey n (mixFKs newNames td) M) = alookup k M
          exact alookup_asetKey_ne (fun h => hk h.symm) _ _

theorem drops_phase : ∀ (pairs : List (String × TableDef)) (M : Snapshot),
    (akeys M).Nodup → (akeys pairs).Nodup →
    (∀ p ∈ pairs, (alookup p.1 M).isSome = true) →
    consistentAll M (pairs.map (fun p => Action.dropTable p.1 p.2)) ∧
    ∀ k, alookup k (patchAll M (pairs.map (fun p => Action.dropTable p.1 p.2))) =
      if k ∈ akeys pairs then none else alookup k M
  | [], M, _, _, _ => by
    refine ⟨trivial, fun k => ?_⟩
    show alookup k M =
      if k ∈ akeys ([] : List (String × TableDef)) then none else alookup k M
    simp [akeys]
  | (n, td) :: pairs, M, hM, hnodup, hpres => by
    simp only [akeys, List.map_cons, List.nodup_cons] at hnodup
    have hn : (alookup n M).isSome = true := hpres (n, td) (List.mem_cons_self _ _)
    have hpres2 : ∀ p ∈ pairs, (alookup p.1 (aeraseKey n M)).isSome = true := by
      intro p hp
      have hpn : p.1 ≠ n := fun h => hnodup.1 (List.mem_map.mpr ⟨p, hp, h⟩)
      rw [alookup_aeraseKey_ne hpn]
      exact hpres p (List.mem_cons_of_mem _ hp)
    obtain ⟨ihc, ihl⟩ := drops_phase pairs (aeraseKey n M)
      ((akeys_aeraseKey_sublist n M).nodup hM) hnodup.2 hpres2
    refine ⟨⟨hn, ihc⟩, ?_⟩
    intro k
    show alookup k (patchAll (aeraseKey n M) _) = _
    rw [ihl k]
    by_cases hkp : k ∈ akeys pairs
    · rw [if_pos hkp, if_pos ?memc]
      case memc =>
        show k ∈ akeys ((n, td) :: pairs)
        exact List.mem_cons_of_mem _ hkp
    · rw [if_neg hkp]
      by_cases hkn : k = n
      · subst hkn
        rw [if_pos ?memh, alookup_aeraseKey_self hM]
        case memh =>
          show k ∈ akeys ((k, td) :: pairs)
          exact List.mem_cons_self _ _
      · rw [alookup_aeraseKey_ne hkn, if_neg ?memn]
        case memn =>
          show k ∉ akeys ((n, td) :: pairs)
          intro hmem
          rcases List.mem_cons.mp hmem with h1 | h1
          · exact hkn h1
          · exact hkp h1


theorem commons_phase : ∀ (commons : List (String × TableDef))
    (source target M : Snapshot),
    (akeys commons).Nodup →
    (∀ p ∈ commons, ∃ src tgt, alookup p.1 source = some src ∧
      alookup p.1 target = some tgt ∧ src.WF ∧ tgt.WF ∧
      alookup p.1 M = some src) →
    consistentAll M (commons.flatMap (fun p =>
      match alookup p.1 source, alookup p.1 target with
      | some src, some tgt => tableDiff p.1 src tgt
      | _, _ => [])) ∧
    akeys (patchAll M (commons.flatMap (fun p =>
      match alookup p.1 source, alookup p.1 target with
      | some src, some tgt => tableDiff p.1 src tgt
      | _, _ => []))) = akeys M ∧
    (∀ p ∈ commons, ∃ src tgt, alookup p.1 source = some src ∧
      alookup p.1 target = some tgt ∧
      alookup p.1 (patchAll M (commons.flatMap (fun p =>
        match alookup p.1 source, alookup p.1 target with
        | some src, some tgt => tableDiff p.1 src tgt
        | _, _ => []))) = some (ctd7 src tgt)) ∧
    (∀ k, k ∉ akeys commons →
      alookup k (patchAll M (commons.flatMap (fun p =>
        match alookup p.1 source, alookup p.1 target with
        | some src, some tgt => tableDiff p.1 src tgt
        | _, _ => []))) = alookup k M)
  | [], source, target, M, _, _ =>
    ⟨trivial, rfl, fun p hp => absurd hp (List.not_mem_nil p), fun k _ => rfl⟩
  | (n, tdv) :: commons, source, target, M, hnodup, hyp => by
    simp only [akeys, List.map_cons, List.nodup_cons] at hnodup
    obtain ⟨src, tgt, hsrcL, htgtL, hsrcW, htgtW, hMl⟩ :=
      hyp (n, tdv) (List.mem_cons_self _ _)
    have hact : (match alookup (n, tdv).1 source, alookup (n, tdv).1 target with
        | some src, some tgt => tableDiff (n, tdv).1 src tgt
        | _, _ => []) = tableDiff n src tgt := by
      show (match alookup n source, alookup n target with
        | some src, some tgt => tableDiff n src tgt
        | _, _ => []) = tableDiff n src tgt
      rw [hsrcL, htgtL]
    obtain ⟨cc, pp, _⟩ := tableDiff_phase n src tgt hsrcW htgtW M hMl
    have hsplit : ((n, tdv) :: commons).flatMap (fun p =>
        match alookup p.1 source, alookup p.1 target with
        | some src, some tgt => tableDiff p.1 src tgt
        | _, _ => []) =
        (match alookup n source, alookup n target with
          | some src, some tgt => tableDiff n src tgt
          | _, _ => []) ++
        commons.flatMap (fun p =>
          match alookup p.1 source, alookup p.1 target with
          | some src, some tgt => tableDiff p.1 src tgt
          | _, _ => []) := rfl
    have cc2 : consistentAll M (match alookup n source, alookup n target with
        | some src, some tgt => tableDiff n src tgt
        | _, _ => []) := by
      rw [show (match alookup n source, alookup n target with
        | some src, some tgt => tableDiff n src tgt
        | _, _ => []) = tableDiff n src tgt from hact]
      exact cc
    have pp2 : patchAll M (match alookup n source, alookup n target with
        | some src, some tgt => tableDiff n src tgt
        | _, _ => []) = asetKey n (ctd7 src tgt) M := by
      rw [show (match alookup n source, alookup n target with
        | some src, some tgt => tableDiff n src tgt
        | _, _ => []) = tableDiff n src tgt from hact]
      exact pp
    have hyp2 : ∀ p ∈ commons, ∃ src2 tgt2, alookup p.1 source = some src2 ∧
        alookup p.1 target = some tgt2 ∧ src2.WF ∧ tgt2.WF ∧
        alookup p.1 (asetKey n (ctd7 src tgt) M) = some src2 := by
      intro p hp
      obtain ⟨s2, t2, h1, h2, h3, h4, h5⟩ := hyp p (List.mem_cons_of_mem _ hp)
      have hpn : p.1 ≠ n := fun h => hnodup.1 (List.mem_map.mpr ⟨p, hp, h⟩)
      exact ⟨s2, t2, h1, h2, h3, h4, by rw [alookup_asetKey_ne hpn]; exact h5⟩
    obtain ⟨ihc, ihk, ihm, iho⟩ :=
      commons_phase commons source target (asetKey n (ctd7 src tgt) M) hnodup.2 hyp2
    refine ⟨?_, ?_, ?_, ?_⟩
    · rw [hsplit]
      refine consistentAll_append.mpr ⟨cc2, ?_⟩
      rw [pp2]
      exact ihc
    · rw [hsplit, patchAll_append, pp2, ihk, akeys_asetKey]
    · intro p hp
      rw [hsplit, patchAll_append, pp2]
      rcases List.mem_cons.mp hp with rfl | hp2
      · refine ⟨src, tgt, hsrcL, htgtL, ?_⟩
        rw [iho n hnodup.1]
        exact alookup_asetKey_self _ (by rw [hMl]; rfl)
      · exact ihm p hp2
    · intro k hk
      have hk1 : k ≠ n := by
        intro h
        exact hk (by rw [h]; exact List.mem_cons_self _ _)
      have hk2 : k ∉ akeys commons := by
        intro h
        exact hk (List.mem_cons_of_mem _ h)
      rw [hsplit, patchAll_append, pp2, iho k hk2,
        alookup_asetKey_ne hk1]


/-- The full diff is consistent at its source snapshot and patches it to a
schema equivalent to the target. -/
theorem parseDifference_ok (S T : Snapshot) (hS : S.WF) (hT : T.WF) :
    consistentAll S (parseDifference S T) ∧
    SnapshotEquivU (patchAll S (parseDifference S T)) T := by
  have hnewsNone : ∀ p ∈ diffNews S T, alookup p.1 S = none := by
    intro p hp
    have := List.of_mem_filter hp
    rwa [Option.isNone_iff_eq_none] at this
  have hnewsT : ∀ p ∈ diffNews S T, p ∈ T := fun p hp => List.mem_of_mem_filter hp
  have hnodupNews : (akeys (diffNews S T)).Nodup :=
    (akeys_filter_sublist _ _).nodup hT.1
  have hnewsWF : ∀ p ∈ diffNews S T, TableDef.WF p.2 :=
    fun p hp => hT.2 p (hnewsT p hp)
  have hkeysStripped : akeys (strippedNews S T) = akeys (diffNews S T) := by
    unfold strippedNews
    exact akeys_map_keyed _ _
  have hfreshS : ∀ p ∈ strippedNews S T, alookup p.1 S = none := by
    intro p hp
    obtain ⟨q, hq, rfl⟩ := List.mem_map.mp hp
    exact hnewsNone q hq
  have hwfS : ∀ p ∈ strippedNews S T, TableDef.WF p.2 := by
    intro p hp
    obtain ⟨q, hq, rfl⟩ := List.mem_map.mp hp
    exact wf_keptForeignKeys (hnewsWF q hq)
  obtain ⟨c1, p1⟩ := creates_phase (strippedNews S T) S hfreshS
    (by rw [hkeysStripped]; exact hnodupNews) hwfS
  have c1d : consistentAll S (diffCreates S T) := by
    rw [creates_eq]
    exact c1
  have p1d : patchAll S (diffCreates S T) = S ++ strippedNews S T := by
    rw [creates_eq]
    exact p1
  have hlookM1 : ∀ p ∈ diffNews S T, alookup p.1 (S ++ strippedNews S T) =
      some (keptForeignKeys (newTableNames S T) p.2) := by
    intro p hp
    rw [alookup_append_right _ (hnewsNone p hp)]
    exact alookup_of_mem_nodup (by rw [hkeysStripped]; exact hnodupNews)
      (List.mem_map.mpr ⟨p, hp, rfl⟩)
  obtain ⟨c2, k2, l2⟩ := deferred_phase (diffNews S T) (S ++ strippedNews S T)
    (newTableNames S T) hnodupNews hnewsWF hlookM1
  have hnewsKeyNone : ∀ k, (alookup k S).isSome = true →
      alookup k (diffNews S T) = none := by
    intro k hk
    rw [alookup_eq_none_iff]
    intro hmem
    obtain ⟨q, hq, hqk⟩ := List.mem_map.mp hmem
    have := hnewsNone q hq
    rw [hqk] at this
    rw [this] at hk
    simp at hk
  have hnodupCommons : (akeys (T.filter (fun p => (alookup p.1 S).isSome))).Nodup :=
    (akeys_filter_sublist _ _).nodup hT.1
  have hypCommons : ∀ p ∈ T.filter (fun p => (alookup p.1 S).isSome),
      ∃ src tgt, alookup p.1 S = some src ∧ alookup p.1 T = some tgt ∧
        src.WF ∧ tgt.WF ∧
        alookup p.1 (patchAll (S ++ strippedNews S T)
          ((diffNews S T).flatMap
            (fun p => deferredFKActions (newTableNames S T) p.1 p.2))) = some src := by
    intro p hp
    have hpT : p ∈ T := List.mem_of_mem_filter hp
    have hpS : (alookup p.1 S).isSome = true := (List.mem_filter.mp hp).2
    obtain ⟨src, hsrc⟩ := Option.isSome_iff_exists.mp hpS
    have htgt : alookup p.1 T = some p.2 := alookup_of_mem_nodup hT.1 hpT
    refine ⟨src, p.2, hsrc, htgt, wf_table_of_lookup hS hsrc, hT.2 p hpT, ?_⟩
    rw [l2 p.1, hnewsKeyNone p.1 hpS, alookup_append_left _ hsrc]
  obtain ⟨c3, k3, m3, o3⟩ := commons_phase (T.filter (fun p => (alookup p.1 S).isSome))
    S T (patchAll (S ++ strippedNews S T)
      ((diffNews S T).flatMap
        (fun p => deferredFKActions (newTableNames S T) p.1 p.2)))
    hnodupCommons hypCommons
  have hcommonsNone : ∀ k, alookup k T = none →
      k ∉ akeys (T.filter (fun p => (alookup p.1 S).isSome)) := by
    intro k hk hmem
    obtain ⟨q, hq, hqk⟩ := List.mem_map.mp hmem
    have hqT : q ∈ T := List.mem_of_mem_filter hq
    have := alookup_isSome_of_mem hqT
    rw [hqk, hk] at this
    cases this
  have hnewsNoneT : ∀ k, alookup k T = none → alookup k (diffNews S T) = none := by
    intro k hk
    rw [alookup_eq_none_iff]
    intro hmem
    obtain ⟨q, hq, hqk⟩ := List.mem_map.mp hmem
    have hqT : q ∈ T := List.mem_of_mem_filter hq
    have := alookup_isSome_of_mem hqT
    rw [hqk, hk] at this
    cases this
  have hkeysM3 : (akeys (patchAll (patchAll (S ++ strippedNews S T)
      ((diffNews S T).flatMap
        (fun p => deferredFKActions (newTableNames S T) p.1 p.2)))
      ((T.filter (fun p => (alookup p.1 S).isSome)).flatMap (fun p =>
        match alookup p.1 S, alookup p.1 T with
        | some src, some tgt => tableDiff p.1 src tgt
        | _, _ => [])))).Nodup := by
    rw [k3, k2, akeys_append, hkeysStripped]
    refine List.Nodup.append hS.1 hnodupNews ?_
    intro a ha hb
    obtain ⟨q, hq, hqk⟩ := List.mem_map.mp hb
    have := hnewsNone q hq
    rw [hqk] at this
    exact ((alookup_eq_none_iff a S).mp this) ha
  have hnodupDrops : (akeys (S.filter (fun p => (alookup p.1 T).isNone))).Nodup :=
    (akeys_filter_sublist _ _).nodup hS.1
  have hpresDrops : ∀ p ∈ S.filter (fun p => (alookup p.1 T).isNone),
      (alookup p.1 (patchAll (patchAll (S ++ strippedNews S T)
        ((diffNews S T).flatMap
          (fun p => deferredFKActions (newTableNames S T) p.1 p.2)))
        ((T.filter (fun p => (alookup p.1 S).isSome)).flatMap (fun p =>
          match alookup p.1 S, alookup p.1 T with
          | some src, some tgt => tableDiff p.1 src tgt
          | _, _ => [])))).isSome = true := by
    intro p hp
    have hpS : p ∈ S := List.mem_of_mem_filter hp
    have hpT : alookup p.1 T = none := by
      have := List.of_mem_filter hp
      rwa [Option.isNone_iff_eq_none] at this
    rw [o3 p.1 (hcommonsNone p.1 hpT), l2 p.1, hnewsNoneT p.1 hpT,
      alookup_append_left _ (alookup_of_mem_nodup hS.1 hpS)]
    rfl
  obtain ⟨c4, l4⟩ := drops_phase (S.filter (fun p => (alookup p.1 T).isNone)) _
    hkeysM3 hnodupDrops hpresDrops
  constructor
  · rw [parseDifference_eq]
    simp only [List.append_assoc]
    refine consistentAll_append.mpr ⟨c1d, ?_⟩
    rw [p1d]
    refine consistentAll_append.mpr ⟨c2, ?_⟩
    refine consistentAll_append.mpr ⟨c3, ?_⟩
    exact c4
  · have hfinal : patchAll S (parseDifference S T) =
        patchAll (patchAll (patchAll (S ++ strippedNews S T)
          ((diffNews S T).flatMap
            (fun p => deferredFKActions (newTableNames S T) p.1 p.2)))
          ((T.filter (fun p => (alookup p.1 S).isSome)).flatMap (fun p =>
            match alookup p.1 S, alookup p.1 T with
            | some src, some tgt => tableDiff p.1 src tgt
            | _, _ => [])))
          ((S.filter (fun p => (alookup p.1 T).isNone)).map
            (fun p => Action.dropTable p.1 p.2)) := by
      rw [parseDifference_eq, patchAll_append, patchAll_append, patchAll_append, p1d]
      rfl
    rw [hfinal]
    intro k
    rw [l4 k]
    by_cases hdrop : k ∈ akeys (S.filter (fun p => (alookup p.1 T).isNone))
    · rw [if_pos hdrop]
      obtain ⟨p, hp, hpk⟩ := List.mem_map.mp hdrop
      have hTnone : alookup k T = none := by
        have := List.of_mem_filter hp
        rw [hpk, Option.isNone_iff_eq_none] at this
        exact this
      rw [hTnone]
      trivial
    · rw [if_neg hdrop]
      cases hTk : alookup k T with
      | none =>
        have hkS : alookup k S = none := by
          cases hSk : alookup k S with
          | none => rfl
          | some v =>
            exfalso
            refine hdrop (List.mem_map.mpr ⟨(k, v), List.mem_filter.mpr
              ⟨mem_of_alookup_eq_some hSk, ?_⟩, rfl⟩)
            show (alookup (k, v).1 T).isNone = true
            show (alookup k T).isNone = true
            rw [hTk]
            rfl
        rw [o3 k (hcommonsNone k hTk), l2 k, hnewsNoneT k hTk,
          alookup_append_right _ hkS]
        have : alookup k (strippedNews S T) = none := by
          rw [alookup_eq_none_iff, hkeysStripped, ← alookup_eq_none_iff]
          exact hnewsNoneT k hTk
        rw [this]
        trivial
      | some tgt =>
        cases hSk : alookup k S with
        | none =>
          have hkC : k ∉ akeys (T.filter (fun p => (alookup p.1 S).isSome)) := by
            intro hmem
            obtain ⟨q, hq, hqk⟩ := List.mem_map.mp hmem
            have := (List.mem_filter.mp hq).2
            rw [hqk] at this
            rw [hSk] at this
            cases this
          have hkNew : alookup k (diffNews S T) = some tgt := by
            refine alookup_of_mem_nodup hnodupNews
              (List.mem_filter.mpr ⟨mem_of_alookup_eq_some hTk, ?_⟩)
            show (alookup (k, tgt).1 S).isNone = true
            show (alookup k S).isNone = true
            rw [hSk]
            rfl
          rw [o3 k hkC, l2 k, hkNew]
          exact (tableEquiv_iff_u _ _).mpr (mixFKs_equiv (newTableNames S T) tgt)
        | some src =>
          have hmemC : (k, tgt) ∈ T.filter (fun p => (alookup p.1 S).isSome) := by
            refine List.mem_filter.mpr ⟨mem_of_alookup_eq_some hTk, ?_⟩
            show (alookup (k, tgt).1 S).isSome = true
            show (alookup k S).isSome = true
            rw [hSk]
            rfl
          obtain ⟨src2, tgt2, hs2, ht2, hlookF⟩ := m3 (k, tgt) hmemC
          have hsEq : src2 = src := by
            have : some src = some src2 := by rw [← hSk, ← hs2]
            exact (Option.some.inj this).symm
          have htEq : tgt2 = tgt := by
            have : some tgt = some tgt2 := by rw [← hTk, ← ht2]
            exact (Option.some.inj this).symm
          rw [show alookup (k, tgt).1 _ = alookup k _ from rfl] at hlookF
          rw [hlookF, hsEq, htEq]
          exact (tableEquiv_iff_u _ _).mpr
            (ctd7_equiv (wf_table_of_lookup hS hSk) (wf_table_of_lookup hT hTk))


theorem tableEquivU_trans {t u v : TableDef} (h1 : TableEquivU t u)
    (h2 : TableEquivU u v) : TableEquivU t v :=
  ⟨fun c => (h1.1 c).trans (h2.1 c),
   fun p => (h1.2.1 p).trans (h2.2.1 p),
   fun p => (h1.2.2 p).trans (h2.2.2 p)⟩

theorem snapshotEquivU_trans {s u v : Snapshot} (h1 : SnapshotEquivU s u)
    (h2 : SnapshotEquivU u v) : SnapshotEquivU s v := by
  intro n
  have a1 := h1 n
  have a2 := h2 n
  cases hs : alookup n s with
  | none =>
    rw [hs] at a1
    cases hu : alookup n u with
    | none =>
      rw [hu] at a2
      exact a2
    | some tu =>
      rw [hu] at a1
      exact a1.elim
  | some ts =>
    rw [hs] at a1
    cases hu : alookup n u with
    | none =>
      rw [hu] at a1
      exact a1.elim
    | some tu =>
      rw [hu] at a1
      rw [hu] at a2
      cases hv : alookup n v with
      | none =>
        rw [hv] at a2
        exact a2.elim
      | some tv =>
        rw [hv] at a2
        show TableEquiv ts tv
        exact (tableEquiv_iff_u _ _).mpr
          (tableEquivU_trans ((tableEquiv_iff_u _ _).mp a1)
            ((tableEquiv_iff_u _ _).mp a2))

/-- `depOrderedB` is the boolean form of pairwise non-dependence. -/
theorem depOrderedB_eq_true_iff (l : List Action) :
    depOrderedB l = true ↔
      List.Pairwise (fun x y => dependsOn x y = false) l := by
  induction l with
  | nil => simp [depOrderedB]
  | cons a rest ih =>
    simp only [depOrderedB, Bool.and_eq_true, List.all_eq_true, List.pairwise_cons]
    rw [ih]
    constructor
    · rintro ⟨h1, h2⟩
      refine ⟨fun y hy => ?_, h2⟩
      have := h1 y hy
      rwa [Bool.not_eq_true'] at this
    · rintro ⟨h1, h2⟩
      refine ⟨fun y hy => ?_, h2⟩
      rw [Bool.not_eq_true']
      exact h1 y hy

/-- No member of a per-table diff creates or drops a table. -/
theorem tableDiff_shapes {n : String} {src tgt : TableDef} {a : Action}
    (h : a ∈ tableDiff n src tgt) : a.isCreate = false ∧ a.isDrop = false := by
  rw [tableDiff_eq] at h
  simp only [List.mem_append] at h
  rcases h with ((((((h | h) | h) | h) | h) | h) | h) <;>
    obtain ⟨q, hq, rfl⟩ := List.mem_map.mp h <;>
    exact ⟨rfl, rfl⟩

theorem dependsOn_false_of_not_create_drop {x y : Action}
    (hx : x.isDrop = false) (hy : y.isCreate = false) : dependsOn x y = false := by
  cases hxy : dependsOn x y with
  | false => rfl
  | true =>
    rcases dependsOn_eq_true_cases hxy with h | h
    · rw [hy] at h
      cases h
    · rw [hx] at h
      cases h

/-- The diff emits its actions already in dependency order: creates first,
then deferred foreign keys, then per-table modifications, then drops. -/
theorem parseDifference_depOrdered (S T : Snapshot) :
    depOrderedB (parseDifference S T) = true := by
  have hC : ∀ a ∈ diffCreates S T, a.isCreate = true := by
    intro a ha
    obtain ⟨p, _, rfl⟩ := List.mem_map.mp ha
    rfl
  have hD : ∀ a ∈ diffDeferred S T, a.isDrop = false ∧ a.isCreate = false := by
    intro a ha
    obtain ⟨p, _, hmem⟩ := List.mem_flatMap.mp ha
    obtain ⟨q, _, rfl⟩ := List.mem_map.mp hmem
    exact ⟨rfl, rfl⟩
  have hM : ∀ a ∈ diffCommonActs S T, a.isDrop = false ∧ a.isCreate = false := by
    intro a ha
    obtain ⟨p, _, hmem⟩ := List.mem_flatMap.mp ha
    cases hs : alookup p.1 S with
    | none =>
      rw [hs] at hmem
      cases ht : alookup p.1 T with
      | none =>
        rw [ht] at hmem
        cases hmem
      | some tgt =>
        rw [ht] at hmem
        cases hmem
    | some src =>
      rw [hs] at hmem
      cases ht : alookup p.1 T with
      | none =>
        rw [ht] at hmem
        cases hmem
      | some tgt =>
        rw [ht] at hmem
        have := tableDiff_shapes hmem
        exact ⟨this.2, this.1⟩
  have hDr : ∀ a ∈ diffDrops S T, a.isDrop = true := by
    intro a ha
    obtain ⟨p, _, rfl⟩ := List.mem_map.mp ha
    rfl
  have hDrC : ∀ a ∈ diffDrops S T, a.isCreate = false := by
    intro a ha
    obtain ⟨p, _, rfl⟩ := List.mem_map.mp ha
    rfl
  have hRcreate : ∀ x : Action, x.isCreate = true → ∀ y, dependsOn x y = false := by
    intro x hx y
    cases x <;> first
      | exact dependsOn_create_left _ _ y
      | cases hx
  have hRdrop : ∀ x y : Action, x.isDrop = true → y.isDrop = true →
      dependsOn x y = false := by
    intro x y hx hy
    cases x <;> try cases hx
    cases y <;> try cases hy
    exact dependsOn_drop_drop _ _ _ _
  have pairwise_of_all : ∀ l : List Action,
      (∀ x ∈ l, ∀ y ∈ l, dependsOn x y = false) →
      List.Pairwise (fun x y : Action => dependsOn x y = false) l := by
    intro l
    induction l with
    | nil =>
      intro _
      exact List.Pairwise.nil
    | cons a rest ih =>
      intro hl
      exact List.Pairwise.cons
        (fun y hy => hl a (List.mem_cons_self a rest) y (List.mem_cons_of_mem a hy))
        (ih (fun x hx y hy =>
          hl x (List.mem_cons_of_mem a hx) y (List.mem_cons_of_mem a hy)))
  rw [depOrderedB_eq_true_iff, parseDifference_eq]
  simp only [List.pairwise_append]
  refine ⟨⟨⟨?_, ?_, ?_⟩, ?_, ?_⟩, ?_, ?_⟩
  · exact pairwise_of_all _ (fun x hx y _ => hRcreate x (hC x hx) y)
  · exact pairwise_of_all _ (fun x hx y hy =>
      dependsOn_false_of_not_create_drop (hD x hx).1 (hD y hy).2)
  · exact fun x hx y _ => hRcreate x (hC x hx) y
  · exact pairwise_of_all _ (fun x hx y hy =>
      dependsOn_false_of_not_create_drop (hM x hx).1 (hM y hy).2)
  · intro x hx y hy
    rcases List.mem_append.mp hx with hx | hx
    · exact hRcreate x (hC x hx) y
    · exact dependsOn_false_of_not_create_drop (hD x hx).1 (hM y hy).2
  · exact pairwise_of_all _ (fun x hx y hy => hRdrop x y (hDr x hx) (hDr y hy))
  · intro x hx y hy
    rcases List.mem_append.mp hx with hx | hx
    · rcases List.mem_append.mp hx with hx | hx
      · exact hRcreate x (hC x hx) y
      · exact dependsOn_false_of_not_create_drop (hD x hx).1 (hDrC y hy)
    · exact dependsOn_false_of_not_create_drop (hM x hx).1 (hDrC y hy)


/-- C1: Round trip.  For all well-formed Snapshots A and B, applying the
statements of `getMigration (sortActions (parseDifference A B))` in order to a
schema equal to A succeeds and yields a schema equal to B, and applying the
statements of `getMigration (sortActions (parseDifference B A))` afterward
yields a schema equal to A again. -/
theorem migration_round_trip (A B : Snapshot) (hA : A.WF) (hB : B.WF) :
    ∃ A₁ A₂,
      applyActions A (getMigration (sortActions (parseDifference A B))).commandsUp
        = some A₁ ∧
      SnapshotEquiv A₁ B ∧
      applyActions A₁ (getMigration (sortActions (parseDifference B A))).commandsUp
        = some A₂ ∧
      SnapshotEquiv A₂ A := by
  obtain ⟨hc1, he1⟩ := parseDifference_ok A B hA hB
  obtain ⟨hc2, he2⟩ := parseDifference_ok B A hB hA
  have hs1 : sortActions (parseDifference A B) = parseDifference A B :=
    kahn_of_depOrdered _ (parseDifference_depOrdered A B)
  have hs2 : sortActions (parseDifference B A) = parseDifference B A :=
    kahn_of_depOrdered _ (parseDifference_depOrdered B A)
  obtain ⟨A₁, happ1, heq1, hwp1, hwA₁⟩ :=
    applyActions_simulates (parseDifference A B) A A (snapshotEquivU_refl A) hA hA hc1
  have hA₁B : SnapshotEquivU A₁ B :=
    snapshotEquivU_trans (snapshotEquivU_symm heq1) he1
  obtain ⟨A₂, happ2, heq2, hwp2, hwA₂⟩ :=
    applyActions_simulates (parseDifference B A) B A₁ (snapshotEquivU_symm hA₁B)
      hB hwA₁ hc2
  have hA₂A : SnapshotEquivU A₂ A :=
    snapshotEquivU_trans (snapshotEquivU_symm heq2) he2
  refine ⟨A₁, A₂, ?_, ?_, ?_, ?_⟩
  · rw [hs1]
    exact happ1
  · exact (snapshotEquiv_iff_u _ _).mpr hA₁B
  · rw [hs2]
    exact happ2
  · exact (snapshotEquiv_iff_u _ _).mpr hA₂A

/-- Witness for C1 at concrete snapshots: the empty schema and a schema with
one `Users` table. -/
theorem migration_round_trip_witness :
    Snapshot.WF ([] : Snapshot) ∧ Snapshot.WF [("Users", exUsers)] ∧
    ∃ A₁ A₂,
      applyActions ([] : Snapshot)
        (getMigration (sortActions (parseDifference [] [("Users", exUsers)]))).commandsUp
        = some A₁ ∧
      SnapshotEquiv A₁ [("Users", exUsers)] ∧
      applyActions A₁
        (getMigration (sortActions (parseDifference [("Users", exUsers)] []))).commandsUp
        = some A₂ ∧
      SnapshotEquiv A₂ [] :=
  ⟨by decide, by decide,
    migration_round_trip [] [("Users", exUsers)] (by decide) (by decide)⟩

end Migrations









